import Mathlib

/-!
Verification of the extent/key algebra of `drivers/md/bcache/extents.c`.

The file embeds the functions of `extents.c` as Lean definitions and proves
the specified properties about them.  Helper code that `extents.c` uses but
that is not part of the file itself (the key accessors, `bkey_cmp`,
`bch_cut_front`/`bch_cut_back`, the iterator heap of `bset.c`) is modelled
from the specification, as noted on each such definition.

Conventions:
* machine integers are `Nat` (offsets are 64-bit, sizes 16-bit, generations
  8-bit in the C source; moduli are made explicit exactly where the source
  arithmetic can wrap);
* the recency tie-break that the C source performs by comparing key memory
  addresses (`l.k < r.k`, higher address = key of a more recently created
  set) is modelled by an explicit per-run sequence number `seq`
  (larger = newer), as the specification's design notes direct.
-/

namespace Bcache

/-- Modelled from the spec: one replica location for a key's data.
`offset` is the absolute physical sector offset (bucket plus intra-bucket
part), `gen` the 8-bit generation the pointer was created with. -/
structure Bptr where
  dev : Nat
  gen : Nat
  offset : Nat
  deriving DecidableEq, Repr

/-- Modelled from the spec: the in-memory key.  `offset` is the 64-bit
logical end address, `size` the 16-bit length (0 for pointer-only keys),
`ptrs` the replica pointers, `deleted`/`cached` the flag bits and `csum`
the optional 64-bit checksum (present iff the checksum flag is set). -/
structure Bkey where
  offset : Nat
  size : Nat
  ptrs : List Bptr
  deleted : Bool
  cached : Bool
  csum : Option Nat
  deriving DecidableEq, Repr

/-- Modelled from the spec: `KEY_OFFSET` accessor. -/
def KEY_OFFSET (k : Bkey) : Nat := k.offset

/-- Modelled from the spec: `KEY_SIZE` accessor. -/
def KEY_SIZE (k : Bkey) : Nat := k.size

/-- Modelled from the spec: `KEY_PTRS` accessor. -/
def KEY_PTRS (k : Bkey) : Nat := k.ptrs.length

/-- Modelled from the spec: `KEY_DELETED` accessor. -/
def KEY_DELETED (k : Bkey) : Bool := k.deleted

/-- Modelled from the spec: `KEY_CACHED` accessor. -/
def KEY_CACHED (k : Bkey) : Bool := k.cached

/-- Modelled from the spec: `KEY_CSUM` flag accessor. -/
def KEY_CSUM (k : Bkey) : Bool := k.csum.isSome

/-- Modelled from the spec: logical start address `offset - size`
(the source computes this in 64-bit arithmetic; the spec's invariant
`size ≤ offset` makes the truncated subtraction exact). -/
def KEY_START (k : Bkey) : Nat := k.offset - k.size

/-- Modelled from the spec: the `START_KEY(k)` macro, a size-0 key sitting
at `k`'s logical start. -/
def START_KEY (k : Bkey) : Bkey :=
  { offset := KEY_START k, size := 0, ptrs := [], deleted := false,
    cached := false, csum := none }

/-- Modelled from the spec: `bkey_cmp` compares keys by their (end) offset
and returns a signed difference. -/
def bkey_cmp (l r : Bkey) : Int := (KEY_OFFSET l : Int) - (KEY_OFFSET r : Int)

/-- Modelled from the spec: the legacy all-zero key. -/
def ZERO_KEY : Bkey :=
  { offset := 0, size := 0, ptrs := [], deleted := false, cached := false,
    csum := none }

/-- Modelled from the spec: `bch_cut_front(where, k)` trims `k`'s front up
to `where`'s offset: the trimmed length is removed from the front, the
pointer offsets advance by the removed length, and the size shrinks; a key
entirely behind `where` becomes a size-0 key at `where`. -/
def bch_cut_front (w k : Bkey) : Bkey :=
  if bkey_cmp w (START_KEY k) ≤ 0 then k
  else
    let len : Nat := if bkey_cmp w k < 0 then KEY_OFFSET k - KEY_OFFSET w else 0
    { k with
      offset := if bkey_cmp w k < 0 then k.offset else w.offset,
      size := len,
      ptrs := k.ptrs.map (fun p => { p with offset := p.offset + (KEY_SIZE k - len) }) }

/-- Modelled from the spec: `bch_cut_back(where, k)` truncates `k`'s end to
`where`'s offset; the size becomes the part of `k` in front of `where`
(0 when `where` is at or before `k`'s start). -/
def bch_cut_back (w k : Bkey) : Bkey :=
  if bkey_cmp w k ≥ 0 then k
  else
    let len : Nat := if bkey_cmp w (START_KEY k) > 0 then KEY_OFFSET w - KEY_START k else 0
    { k with offset := w.offset, size := len }

@[simp] theorem KEY_OFFSET_def (k : Bkey) : KEY_OFFSET k = k.offset := rfl
@[simp] theorem KEY_SIZE_def (k : Bkey) : KEY_SIZE k = k.size := rfl
@[simp] theorem KEY_START_def (k : Bkey) : KEY_START k = k.offset - k.size := rfl
@[simp] theorem START_KEY_offset (k : Bkey) : (START_KEY k).offset = k.offset - k.size := rfl
@[simp] theorem START_KEY_size (k : Bkey) : (START_KEY k).size = 0 := rfl
@[simp] theorem bkey_cmp_def (l r : Bkey) :
    bkey_cmp l r = (l.offset : Int) - (r.offset : Int) := rfl

/-- A cut at or before the key's start leaves it unchanged. -/
theorem bch_cut_front_noop (w k : Bkey) (h : w.offset ≤ k.offset - k.size) :
    bch_cut_front w k = k := by
  have hc : bkey_cmp w (START_KEY k) ≤ 0 := by simp; omega
  unfold bch_cut_front
  rw [if_pos hc]

/-- A cut strictly inside the key trims its front: the size becomes the
part beyond the cut and the pointer offsets advance by the trimmed
length. -/
theorem bch_cut_front_cut (w k : Bkey) (h1 : k.offset - k.size < w.offset)
    (h2 : w.offset < k.offset) :
    bch_cut_front w k =
      { k with size := k.offset - w.offset,
               ptrs := k.ptrs.map (fun p =>
                 { p with offset := p.offset + (k.size - (k.offset - w.offset)) }) } := by
  have hc1 : ¬ bkey_cmp w (START_KEY k) ≤ 0 := by simp; omega
  have hc2 : bkey_cmp w k < 0 := by simp; omega
  unfold bch_cut_front
  rw [if_neg hc1]
  simp [hc2]
  refine ⟨by omega, by omega, ?_⟩
  intro a ha
  rw [if_pos h2]

/-- A back-cut before the key's end truncates it: the new end is the cut
offset and the new size the part of the key before the cut. -/
theorem bch_cut_back_cut (w k : Bkey) (h : w.offset < k.offset) :
    bch_cut_back w k = { k with offset := w.offset, size := w.offset - (k.offset - k.size) } := by
  have hc : ¬ bkey_cmp w k ≥ 0 := by simp; omega
  unfold bch_cut_back
  rw [if_neg hc]
  by_cases h2 : bkey_cmp w (START_KEY k) > 0
  · simp only [if_pos h2, KEY_OFFSET_def, KEY_START_def]
  · simp only [if_neg h2]
    simp at h2
    have : w.offset - (k.offset - k.size) = 0 := by omega
    rw [this]

/-! ## The external cache-set environment -/

/-- Modelled from the spec: the garbage collector's classification of a
bucket's content role. -/
inductive GcMark where
  | free
  | metadata
  | dirty
  | cachedData
  deriving DecidableEq, Repr

/-- Modelled from the spec: per-device bucket metadata exposed to the core:
the valid bucket range and, per bucket, the 8-bit generation and GC mark. -/
structure Cache where
  firstBucket : Nat
  nbuckets : Nat
  bucketGen : Nat → Nat
  bucketMark : Nat → GcMark

/-- Modelled from the spec: the collaborator state the classifier reads:
device table, bucket size, and the global flags. -/
structure CacheSet where
  bucketSize : Nat
  caches : List Cache
  expensiveChecks : Bool
  gcMarkValid : Bool
  trylockOk : Bool
  mergingDisabled : Bool

/-- Modelled from the spec: `ptr_available` - the pointer's device id is a
valid index into the cache-device table. -/
def ptr_available (c : CacheSet) (p : Bptr) : Bool := p.dev < c.caches.length

/-- Modelled from the spec: `PTR_BUCKET_NR` - the bucket holding the
pointed-at sector. -/
def PTR_BUCKET_NR (c : CacheSet) (p : Bptr) : Nat := p.offset / c.bucketSize

/-- Modelled from the spec: `bucket_remainder` - intra-bucket part of a
physical offset. -/
def bucket_remainder (c : CacheSet) (o : Nat) : Nat := o % c.bucketSize

/-- Modelled from the spec: device-table lookup (callers guard with
`ptr_available`). -/
def PTR_CACHE (c : CacheSet) (p : Bptr) : Cache :=
  c.caches.getD p.dev { firstBucket := 0, nbuckets := 0,
                        bucketGen := fun _ => 0, bucketMark := fun _ => GcMark.free }

/-- Modelled from the spec: the generation of the bucket a pointer targets. -/
def bucketGenOf (c : CacheSet) (p : Bptr) : Nat :=
  (PTR_CACHE c p).bucketGen (PTR_BUCKET_NR c p)

/-- Modelled from the spec: the GC mark of the bucket a pointer targets. -/
def bucketMarkOf (c : CacheSet) (p : Bptr) : GcMark :=
  (PTR_CACHE c p).bucketMark (PTR_BUCKET_NR c p)

/-- Modelled from the spec: `ptr_stale` - the staleness distance
`(bucket.generation - pointer.generation) mod 256`. -/
def ptr_stale (c : CacheSet) (p : Bptr) : Nat :=
  (bucketGenOf c p % 256 + 256 - p.gen % 256) % 256

/-! ## Validity classification (`__ptr_invalid`, `bch_extent_invalid`,
`bch_extent_bad`) - transcribed from `extents.c` -/

/-- `__ptr_invalid` (extents.c:82): some available pointer spans past its
bucket's end or targets a bucket outside its device's valid range. -/
def ptr_invalid (c : CacheSet) (k : Bkey) : Bool :=
  k.ptrs.any fun p =>
    ptr_available c p &&
      (decide (KEY_SIZE k + bucket_remainder c p.offset > c.bucketSize) ||
       decide (PTR_BUCKET_NR c p < (PTR_CACHE c p).firstBucket) ||
       decide (PTR_BUCKET_NR c p ≥ (PTR_CACHE c p).nbuckets))

/-- `bch_extent_invalid` (extents.c:270): zero size, size exceeding offset,
or an invalid pointer. -/
def bch_extent_invalid (c : CacheSet) (k : Bkey) : Bool :=
  if KEY_SIZE k = 0 then true
  else if KEY_SIZE k > KEY_OFFSET k then true
  else ptr_invalid c k

/-- `bch_extent_bad_expensive` (extents.c:291): with the bucket lock
acquired (else skipped), a GC-marked bucket must be `dirty` for a dirty key
and never `metadata`; a mismatch is bad and reported. -/
def bch_extent_bad_expensive (c : CacheSet) (k : Bkey) (p : Bptr) : Bool :=
  c.trylockOk &&
    (c.gcMarkValid &&
      ((decide (bucketMarkOf c p ≠ GcMark.dirty) && !KEY_CACHED k) ||
       decide (bucketMarkOf c p = GcMark.metadata)))

/-- The per-pointer loop of `bch_extent_bad` (extents.c:336-353).
Returns `(bad, reported)` where `reported` records whether one of the
`btree_bug_on`/`btree_bug` inconsistency reports fired. -/
def bch_extent_bad_loop (c : CacheSet) (k : Bkey) : List Bptr → Bool × Bool
  | [] => (false, false)
  | p :: ps =>
    let stale := ptr_stale c p
    let rep := decide (stale > 96) ||
               (decide (stale ≠ 0) && !KEY_CACHED k && decide (KEY_SIZE k ≠ 0))
    if stale ≠ 0 then (true, rep)
    else if c.expensiveChecks && bch_extent_bad_expensive c k p then (true, true)
    else
      let r := bch_extent_bad_loop c k ps
      (r.1, rep || r.2)

/-- `bch_extent_bad` (extents.c:318), returning `(bad, reported)`:
deleted, pointerless or invalid keys are bad; so is any key with an
unavailable pointer; with expensive checks off, non-cached (dirty) keys are
then accepted; otherwise each pointer is checked for staleness and (under
expensive checks) against the GC marks. -/
def bch_extent_bad_r (c : CacheSet) (k : Bkey) : Bool × Bool :=
  if KEY_DELETED k || decide (KEY_PTRS k = 0) || bch_extent_invalid c k then (true, false)
  else if k.ptrs.any (fun p => !ptr_available c p) then (true, false)
  else if !c.expensiveChecks && !KEY_CACHED k then (false, false)
  else bch_extent_bad_loop c k k.ptrs

/-- `bch_extent_bad`'s boolean result. -/
def bch_extent_bad (c : CacheSet) (k : Bkey) : Bool :=
  (bch_extent_bad_r c k).1

/-! ## Extent coalescing (`merge_chksums`, `bch_extent_merge`) -/

/-- `USHRT_MAX`, the maximum value of the 16-bit size field. -/
def USHRT_MAX : Nat := 65535

/-- `merge_chksums` (extents.c:358): sum of the two checksum slots in
64-bit arithmetic with bit 63 forced to zero
(`(l + r) & ~((uint64_t)1 << 63)`). -/
def merge_chksums (cl cr : Nat) : Nat :=
  Nat.land ((cl + cr) % 2 ^ 64) (2 ^ 64 - 1 - 2 ^ 63)

/-- The pointer-compatibility loop of `bch_extent_merge` (extents.c:378):
every pointer of `r` equals the corresponding pointer of `l` advanced by
`l`'s size, inside the same bucket. -/
def extent_ptrs_mergeable (c : CacheSet) (l r : Bkey) : Bool :=
  (l.ptrs.zip r.ptrs).all fun pr =>
    decide (pr.2.dev = pr.1.dev) && decide (pr.2.gen = pr.1.gen) &&
    decide (pr.2.offset = pr.1.offset + KEY_SIZE l) &&
    decide (PTR_BUCKET_NR c pr.1 = PTR_BUCKET_NR c pr.2)

/-- `bch_extent_merge` (extents.c:364), returning
`(merged, new_l, new_r)`.  Offsets are stored modulo `2^64` as in the
source's 64-bit field. -/
def bch_extent_merge (c : CacheSet) (l r : Bkey) : Bool × Bkey × Bkey :=
  if c.mergingDisabled then (false, l, r)
  else if decide (KEY_PTRS l ≠ KEY_PTRS r) || decide (KEY_DELETED l ≠ KEY_DELETED r) ||
          decide (KEY_CACHED l ≠ KEY_CACHED r) ||
          decide (bkey_cmp l (START_KEY r) ≠ 0) then (false, l, r)
  else if !extent_ptrs_mergeable c l r then (false, l, r)
  else if KEY_SIZE l + KEY_SIZE r > USHRT_MAX then
    let l' : Bkey := { l with offset := (KEY_OFFSET l + USHRT_MAX - KEY_SIZE l) % 2 ^ 64,
                              size := USHRT_MAX }
    (false, l', bch_cut_front l' r)
  else
    let l1 : Bkey :=
      if KEY_CSUM l then
        match r.csum with
        | some cr => { l with csum := some (merge_chksums (l.csum.getD 0) cr) }
        | none => { l with csum := none }
      else l
    (true, { l1 with offset := (KEY_OFFSET l1 + KEY_SIZE r) % 2 ^ 64,
                     size := KEY_SIZE l + KEY_SIZE r }, r)

/-! ## Properties of the validity classifier (claims C3, C4) -/

/-- With expensive checks off, the per-pointer loop reports bad exactly on a
stale pointer. -/
theorem bad_loop_no_expensive (c : CacheSet) (k : Bkey) (ps : List Bptr)
    (hex : c.expensiveChecks = false) :
    (bch_extent_bad_loop c k ps).1 = true ↔ ∃ p ∈ ps, ptr_stale c p ≠ 0 := by
  induction ps with
  | nil => simp [bch_extent_bad_loop]
  | cons p ps ih =>
    by_cases hs : ptr_stale c p ≠ 0
    · simp [bch_extent_bad_loop, hs]
    · simp only [bch_extent_bad_loop, if_neg hs, hex, Bool.false_and, Bool.false_eq_true,
        if_false, List.mem_cons]
      constructor
      · intro h
        rcases ih.mp h with ⟨q, hq, hq2⟩
        exact ⟨q, Or.inr hq, hq2⟩
      · rintro ⟨q, hq | hq, hq2⟩
        · exact absurd hq2 (hq ▸ hs)
        · exact ih.mpr ⟨q, hq, hq2⟩

/-- On a dirty key of nonzero size, the loop flags any stale pointer as bad
and reports the inconsistency. -/
theorem bad_loop_dirty_stale (c : CacheSet) (k : Bkey) (ps : List Bptr)
    (hc : KEY_CACHED k = false) (hsz : KEY_SIZE k ≠ 0)
    (h : ∃ p ∈ ps, ptr_stale c p ≠ 0) :
    bch_extent_bad_loop c k ps = (true, true) := by
  induction ps with
  | nil => simp at h
  | cons p ps ih =>
    by_cases hs : ptr_stale c p ≠ 0
    · simp only [KEY_SIZE_def] at hsz
      simp [bch_extent_bad_loop, hs, hc, hsz]
    · have htail : ∃ q ∈ ps, ptr_stale c q ≠ 0 := by
        rcases h with ⟨q, hq, hq2⟩
        rcases List.mem_cons.mp hq with rfl | hq
        · exact absurd hq2 hs
        · exact ⟨q, hq, hq2⟩
      by_cases hexp : (c.expensiveChecks && bch_extent_bad_expensive c k p) = true
      · simp [bch_extent_bad_loop, hs, hexp]
      · simp [bch_extent_bad_loop, hs, hexp, ih htail]

/-- C3 (amended): for a non-deleted extent key with available, structurally
valid pointers, with the key cached and expensive checks off, `is_bad`
returns true exactly when some pointer is stale, i.e. when its staleness
distance `(bucket.generation - pointer.generation) mod 256` is nonzero.
In particular distance 1 already makes a cached key bad (the original
claim's `is_bad = false` at distance 1 is wrong), and distance 97 does
too. -/
theorem C3_cached_bad_iff_stale (c : CacheSet) (k : Bkey)
    (hdel : KEY_DELETED k = false) (hptrs : KEY_PTRS k ≠ 0)
    (hinv : bch_extent_invalid c k = false)
    (havail : ∀ p ∈ k.ptrs, ptr_available c p = true)
    (hcached : KEY_CACHED k = true) (hex : c.expensiveChecks = false) :
    bch_extent_bad c k = true ↔ ∃ p ∈ k.ptrs, ptr_stale c p ≠ 0 := by
  have h1 : (KEY_DELETED k || decide (KEY_PTRS k = 0) || bch_extent_invalid c k) = false := by
    simp [hdel, hinv, hptrs]
  have h2 : (k.ptrs.any fun p => !ptr_available c p) = false := by
    simp only [List.any_eq_false]
    intro p hp
    simp [havail p hp]
  unfold bch_extent_bad bch_extent_bad_r
  rw [h1, h2]
  simp only [Bool.false_eq_true, if_false, hcached, Bool.not_true, Bool.and_false,
    if_false]
  exact bad_loop_no_expensive c k k.ptrs hex

/-- The environment of the staleness examples: one device of 100 buckets of
1024 sectors, every bucket at generation 10, GC marks all `cachedData`. -/
def stalenessEnv : CacheSet :=
  { bucketSize := 1024,
    caches := [{ firstBucket := 0, nbuckets := 100,
                 bucketGen := fun _ => 10, bucketMark := fun _ => GcMark.cachedData }],
    expensiveChecks := false, gcMarkValid := true, trylockOk := true,
    mergingDisabled := false }

/-- A cached extent key whose single pointer was written at generation 9,
one behind its bucket's generation 10. -/
def cachedStale1Key : Bkey :=
  { offset := 64, size := 8, ptrs := [{ dev := 0, gen := 9, offset := 0 }],
    deleted := false, cached := true, csum := none }

/-- C3 counterexample: a structurally valid cached key with staleness
distance exactly 1 (bucket generation 10, pointer generation 9) - the
configuration the claim says yields `is_bad = false` - is classified bad by
`bch_extent_bad`. -/
theorem C3_counterexample :
    KEY_CACHED cachedStale1Key = true ∧
    KEY_DELETED cachedStale1Key = false ∧
    bch_extent_invalid stalenessEnv cachedStale1Key = false ∧
    (∀ p ∈ cachedStale1Key.ptrs, ptr_available stalenessEnv p = true) ∧
    (∀ p ∈ cachedStale1Key.ptrs, ptr_stale stalenessEnv p = 1) ∧
    bch_extent_bad stalenessEnv cachedStale1Key = true := by
  refine ⟨rfl, rfl, by decide, ?_, ?_, by decide⟩ <;> decide

/-- Witness for `C3_cached_bad_iff_stale` at the distance-1 cached key. -/
theorem C3_witness :
    KEY_CACHED cachedStale1Key = true ∧
    (bch_extent_bad stalenessEnv cachedStale1Key = true ↔
      ∃ p ∈ cachedStale1Key.ptrs, ptr_stale stalenessEnv p ≠ 0) :=
  ⟨by decide,
   C3_cached_bad_iff_stale stalenessEnv cachedStale1Key (by decide) (by decide)
     (by decide) (by decide) (by decide) (by decide)⟩

/-- C4 (amended): a dirty (non-cached, nonzero-size) valid extent key with
a stale pointer is classified bad with an inconsistency report, provided
the expensive-checks flag is enabled.  (With the flag off, the code
accepts dirty keys without looking at staleness - see
`C4_counterexample`.) -/
theorem C4_dirty_stale_bad (c : CacheSet) (k : Bkey)
    (hdel : KEY_DELETED k = false) (hptrs : KEY_PTRS k ≠ 0)
    (hinv : bch_extent_invalid c k = false)
    (havail : ∀ p ∈ k.ptrs, ptr_available c p = true)
    (hcached : KEY_CACHED k = false) (hsz : KEY_SIZE k ≠ 0)
    (hex : c.expensiveChecks = true)
    (hstale : ∃ p ∈ k.ptrs, ptr_stale c p ≠ 0) :
    bch_extent_bad_r c k = (true, true) := by
  have h1 : (KEY_DELETED k || decide (KEY_PTRS k = 0) || bch_extent_invalid c k) = false := by
    simp [hdel, hinv, hptrs]
  have h2 : (k.ptrs.any fun p => !ptr_available c p) = false := by
    simp only [List.any_eq_false]
    intro p hp
    simp [havail p hp]
  unfold bch_extent_bad_r
  rw [h1, h2]
  simp only [Bool.false_eq_true, if_false, hex, Bool.not_true, Bool.false_and, if_false]
  exact bad_loop_dirty_stale c k k.ptrs hcached hsz hstale

/-- The distance-1 dirty key: same as `cachedStale1Key` but not cached. -/
def dirtyStale1Key : Bkey :=
  { cachedStale1Key with cached := false }

/-- C4 counterexample: with expensive checks off (the production
configuration), the same dirty stale key is accepted by `bch_extent_bad`
with no inconsistency report, contradicting the claim's "regardless of
whether the expensive-checks flag is enabled". -/
theorem C4_counterexample :
    KEY_CACHED dirtyStale1Key = false ∧
    KEY_SIZE dirtyStale1Key ≠ 0 ∧
    stalenessEnv.expensiveChecks = false ∧
    (∀ p ∈ dirtyStale1Key.ptrs, ptr_stale stalenessEnv p = 1) ∧
    bch_extent_bad_r stalenessEnv dirtyStale1Key = (false, false) := by
  refine ⟨rfl, by decide, rfl, ?_, by decide⟩
  decide

/-- The staleness environment with expensive checks enabled (GC marks not
valid, so only the staleness branch of the deep check can fire). -/
def stalenessEnvExpensive : CacheSet :=
  { stalenessEnv with expensiveChecks := true, gcMarkValid := false }

/-- Witness for `C4_dirty_stale_bad` at the distance-1 dirty key with
expensive checks enabled. -/
theorem C4_witness :
    KEY_CACHED dirtyStale1Key = false ∧
    stalenessEnvExpensive.expensiveChecks = true ∧
    bch_extent_bad_r stalenessEnvExpensive dirtyStale1Key = (true, true) :=
  ⟨by decide, rfl,
   C4_dirty_stale_bad stalenessEnvExpensive dirtyStale1Key (by decide) (by decide)
     (by decide) (by decide) (by decide) (by decide) rfl
     ⟨{ dev := 0, gen := 9, offset := 0 }, by decide, by decide⟩⟩

/-! ## Properties of the extent coalescer (claims C7, C9, C10) -/

/-- C10: when merging is disabled or any compatibility precondition fails,
`bch_extent_merge` returns false and leaves both keys untouched; only the
size-overflow path (see `C7_merge_overflow`) returns false with a
mutation. -/
theorem C10_failed_merge_no_mutation (c : CacheSet) (l r : Bkey)
    (h : c.mergingDisabled = true ∨ KEY_PTRS l ≠ KEY_PTRS r ∨
         KEY_DELETED l ≠ KEY_DELETED r ∨ KEY_CACHED l ≠ KEY_CACHED r ∨
         bkey_cmp l (START_KEY r) ≠ 0 ∨ extent_ptrs_mergeable c l r = false) :
    bch_extent_merge c l r = (false, l, r) := by
  unfold bch_extent_merge
  rcases h with h | h | h | h | h | h
  · simp [h]
  all_goals by_cases hdis : c.mergingDisabled = true
  all_goals simp_all

/-- The amount the overflow path lets `l` grow by: up to the maximum
representable size. -/
def overflowConsumed (l : Bkey) : Nat := USHRT_MAX - KEY_SIZE l

/-- The left key as mutated by the overflow path of `bch_extent_merge`:
grown to the maximal representable size. -/
def overflowGrown (l : Bkey) : Bkey :=
  { l with offset := (KEY_OFFSET l + USHRT_MAX - KEY_SIZE l) % 2 ^ 64,
           size := USHRT_MAX }

/-- C7: on compatible adjacent extents whose sizes sum past `USHRT_MAX`,
`bch_extent_merge` reports "not merged" but grows `l` to size exactly
`USHRT_MAX` (offset advanced by the consumed amount) and cuts `r`'s front
by the same amount, leaving the two keys contiguous
(`l.end = l.offset = r.start`). -/
theorem C7_merge_overflow (c : CacheSet) (l r : Bkey)
    (hdis : c.mergingDisabled = false)
    (hp : KEY_PTRS l = KEY_PTRS r) (hd : KEY_DELETED l = KEY_DELETED r)
    (hc : KEY_CACHED l = KEY_CACHED r) (hadj : bkey_cmp l (START_KEY r) = 0)
    (hptr : extent_ptrs_mergeable c l r = true)
    (hsum : KEY_SIZE l + KEY_SIZE r > USHRT_MAX)
    (hl16 : KEY_SIZE l ≤ USHRT_MAX)
    (hrwf : KEY_SIZE r ≤ KEY_OFFSET r)
    (hwrap : KEY_OFFSET l + USHRT_MAX < 2 ^ 64) :
    (bch_extent_merge c l r).1 = false ∧
    KEY_SIZE (bch_extent_merge c l r).2.1 = USHRT_MAX ∧
    KEY_OFFSET (bch_extent_merge c l r).2.1 = KEY_OFFSET l + overflowConsumed l ∧
    KEY_SIZE (bch_extent_merge c l r).2.2 = KEY_SIZE r - overflowConsumed l ∧
    KEY_START (bch_extent_merge c l r).2.2 = KEY_START r + overflowConsumed l ∧
    KEY_START (bch_extent_merge c l r).2.2 = KEY_OFFSET (bch_extent_merge c l r).2.1 := by
  have h64 : (2 : Nat) ^ 64 = 18446744073709551616 := by norm_num
  have hU : USHRT_MAX = 65535 := rfl
  simp only [KEY_SIZE_def, KEY_OFFSET_def, KEY_START_def] at hsum hl16 hrwf hwrap
  rw [hU] at hsum hl16
  rw [hU, h64] at hwrap
  have hro : r.offset = l.offset + r.size := by
    simp at hadj
    omega
  have hadj' : (l.offset : Int) - ((r.offset - r.size : Nat) : Int) = 0 := by
    simpa using hadj
  have hsum' : USHRT_MAX < l.size + r.size := by rw [hU]; omega
  have hmerge :
      bch_extent_merge c l r =
        (false, overflowGrown l, bch_cut_front (overflowGrown l) r) := by
    unfold bch_extent_merge overflowGrown
    simp [hdis, hp, hd, hc, hadj', hptr, hsum']
  have hwoff : (overflowGrown l).offset = l.offset + (65535 - l.size) := by
    show (KEY_OFFSET l + USHRT_MAX - KEY_SIZE l) % 2 ^ 64 = _
    simp only [KEY_OFFSET_def, KEY_SIZE_def]
    rw [hU, h64]
    omega
  have hws : (overflowGrown l).size = 65535 := rfl
  rw [hmerge]
  simp only [KEY_SIZE_def, KEY_OFFSET_def, KEY_START_def]
  unfold overflowConsumed
  simp only [KEY_SIZE_def]
  rw [hU]
  by_cases hz : 65535 - l.size = 0
  · have hcut : bch_cut_front (overflowGrown l) r = r :=
      bch_cut_front_noop _ _ (by rw [hwoff]; omega)
    rw [hcut]
    exact ⟨trivial, hws, by omega, by omega, by omega, by omega⟩
  · have hcut : bch_cut_front (overflowGrown l) r =
        { r with size := r.offset - (overflowGrown l).offset,
                 ptrs := r.ptrs.map (fun p =>
                   { p with offset := p.offset +
                       (r.size - (r.offset - (overflowGrown l).offset)) }) } :=
      bch_cut_front_cut _ _ (by rw [hwoff]; omega) (by rw [hwoff]; omega)
    rw [hcut]
    dsimp only
    exact ⟨trivial, hws, by omega, by omega, by omega, by omega⟩

/-- The environment used by the coalescing examples: merging enabled,
buckets large enough that both test extents live in one bucket. -/
def mergeEnv : CacheSet :=
  { bucketSize := 131072,
    caches := [{ firstBucket := 0, nbuckets := 100,
                 bucketGen := fun _ => 1, bucketMark := fun _ => GcMark.dirty }],
    expensiveChecks := false, gcMarkValid := false, trylockOk := true,
    mergingDisabled := false }

/-- Left key of the overflow example: size 65530 ending at offset 100000. -/
def overflowL : Bkey :=
  { offset := 100000, size := 65530, ptrs := [{ dev := 0, gen := 5, offset := 0 }],
    deleted := false, cached := false, csum := none }

/-- Right key of the overflow example: size 20, physically contiguous with
`overflowL` in the same bucket. -/
def overflowR : Bkey :=
  { offset := 100020, size := 20, ptrs := [{ dev := 0, gen := 5, offset := 65530 }],
    deleted := false, cached := false, csum := none }

/-- Witness for `C7_merge_overflow` at the claim's example sizes
(65530 + 20 > 65535). -/
theorem C7_witness :
    KEY_SIZE overflowL + KEY_SIZE overflowR > USHRT_MAX ∧
    ((bch_extent_merge mergeEnv overflowL overflowR).1 = false ∧
     KEY_SIZE (bch_extent_merge mergeEnv overflowL overflowR).2.1 = USHRT_MAX ∧
     KEY_OFFSET (bch_extent_merge mergeEnv overflowL overflowR).2.1 =
       KEY_OFFSET overflowL + overflowConsumed overflowL ∧
     KEY_SIZE (bch_extent_merge mergeEnv overflowL overflowR).2.2 =
       KEY_SIZE overflowR - overflowConsumed overflowL ∧
     KEY_START (bch_extent_merge mergeEnv overflowL overflowR).2.2 =
       KEY_START overflowR + overflowConsumed overflowL ∧
     KEY_START (bch_extent_merge mergeEnv overflowL overflowR).2.2 =
       KEY_OFFSET (bch_extent_merge mergeEnv overflowL overflowR).2.1) :=
  ⟨by decide,
   C7_merge_overflow mergeEnv overflowL overflowR rfl (by decide) (by decide)
     (by decide) (by decide) (by decide) (by decide) (by decide) (by decide)
     (by decide)⟩

/-- Any merged checksum is below `2^63`: bit 63 is forced to zero. -/
theorem merge_chksums_lt (cl cr : Nat) : merge_chksums cl cr < 2 ^ 63 := by
  unfold merge_chksums
  have h := Nat.and_le_right (n := (cl + cr) % 2 ^ 64) (m := 2 ^ 64 - 1 - 2 ^ 63)
  calc Nat.land ((cl + cr) % 2 ^ 64) (2 ^ 64 - 1 - 2 ^ 63)
      ≤ 2 ^ 64 - 1 - 2 ^ 63 := h
    _ < 2 ^ 63 := by norm_num

/-- C9: on a successful (overflow-free) merge where `l` carries a checksum:
if `r` also does, the result's checksum is `merge_chksums` of the two
(always below `2^63`); otherwise the checksum flag is dropped. -/
theorem C9_merge_checksum (c : CacheSet) (l r : Bkey)
    (hdis : c.mergingDisabled = false)
    (hp : KEY_PTRS l = KEY_PTRS r) (hd : KEY_DELETED l = KEY_DELETED r)
    (hc : KEY_CACHED l = KEY_CACHED r) (hadj : bkey_cmp l (START_KEY r) = 0)
    (hptr : extent_ptrs_mergeable c l r = true)
    (hsum : KEY_SIZE l + KEY_SIZE r ≤ USHRT_MAX)
    (hcs : KEY_CSUM l = true) :
    (bch_extent_merge c l r).1 = true ∧
    (∀ cr, r.csum = some cr →
      (bch_extent_merge c l r).2.1.csum = some (merge_chksums (l.csum.getD 0) cr) ∧
      merge_chksums (l.csum.getD 0) cr < 2 ^ 63) ∧
    (r.csum = none → (bch_extent_merge c l r).2.1.csum = none) := by
  have hadj' : (l.offset : Int) - ((r.offset - r.size : Nat) : Int) = 0 := by
    simpa using hadj
  have hns : ¬ USHRT_MAX < KEY_SIZE l + KEY_SIZE r := by omega
  simp only [KEY_SIZE_def] at hns
  cases hr : r.csum with
  | some cr =>
    have hmerge : bch_extent_merge c l r =
        (true,
         { l with csum := some (merge_chksums (l.csum.getD 0) cr),
                  offset := (l.offset + r.size) % 2 ^ 64,
                  size := l.size + r.size }, r) := by
      unfold bch_extent_merge
      simp [hdis, hp, hd, hc, hadj', hptr, hns, hcs, hr]
    rw [hmerge]
    refine ⟨rfl, ?_, ?_⟩
    · intro cr2 hcr2
      obtain rfl : cr = cr2 := by injection hcr2
      exact ⟨rfl, merge_chksums_lt _ _⟩
    · intro hnone
      simp at hnone
  | none =>
    have hmerge : bch_extent_merge c l r =
        (true,
         { l with csum := none,
                  offset := (l.offset + r.size) % 2 ^ 64,
                  size := l.size + r.size }, r) := by
      unfold bch_extent_merge
      simp [hdis, hp, hd, hc, hadj', hptr, hns, hcs, hr]
    rw [hmerge]
    refine ⟨rfl, ?_, fun _ => rfl⟩
    intro cr2 hcr2
    simp at hcr2

/-- Left key of the checksum example. -/
def csumL : Bkey :=
  { offset := 1000, size := 10, ptrs := [{ dev := 0, gen := 1, offset := 0 }],
    deleted := false, cached := false, csum := some 5 }

/-- Right key of the checksum example, adjacent to `csumL`, carrying a
checksum that pushes the sum past bit 63. -/
def csumR : Bkey :=
  { offset := 1020, size := 20, ptrs := [{ dev := 0, gen := 1, offset := 10 }],
    deleted := false, cached := false, csum := some (2 ^ 63 - 1) }

/-- Witness for `C9_merge_checksum`: `5 + (2^63 - 1)` has bit 63 set, and
the combined checksum comes out as `4`, below `2^63`. -/
theorem C9_witness :
    KEY_CSUM csumL = true ∧
    ((bch_extent_merge mergeEnv csumL csumR).1 = true ∧
     (∀ cr, csumR.csum = some cr →
       (bch_extent_merge mergeEnv csumL csumR).2.1.csum =
         some (merge_chksums (csumL.csum.getD 0) cr) ∧
       merge_chksums (csumL.csum.getD 0) cr < 2 ^ 63) ∧
     (csumR.csum = none → (bch_extent_merge mergeEnv csumL csumR).2.1.csum = none)) :=
  ⟨by decide,
   C9_merge_checksum mergeEnv csumL csumR rfl (by decide) (by decide) (by decide)
     (by decide) (by decide) (by decide) (by decide)⟩

/-- The merge environment with merging globally disabled. -/
def mergeEnvDisabled : CacheSet := { mergeEnv with mergingDisabled := true }

/-- Witness for `C10_failed_merge_no_mutation` with merging disabled. -/
theorem C10_witness :
    (mergeEnvDisabled.mergingDisabled = true ∨ KEY_PTRS csumL ≠ KEY_PTRS csumR ∨
     KEY_DELETED csumL ≠ KEY_DELETED csumR ∨ KEY_CACHED csumL ≠ KEY_CACHED csumR ∨
     bkey_cmp csumL (START_KEY csumR) ≠ 0 ∨
     extent_ptrs_mergeable mergeEnvDisabled csumL csumR = false) ∧
    bch_extent_merge mergeEnvDisabled csumL csumR = (false, csumL, csumR) :=
  ⟨Or.inl rfl,
   C10_failed_merge_no_mutation mergeEnvDisabled csumL csumR (Or.inl rfl)⟩

/-! ## The run merger

The iterator of `bset.c` keeps one cursor per run in a binary min-heap
ordered by the active comparator; the fixup loops only ever inspect the
heap's top (`data[0]`) and the better of `data[1]`/`data[2]`, which by the
heap property is the best of the remaining cursors.  That heap lives in
code outside this file, so it is modelled from the spec: the cursor list
is kept sorted by the comparator (best first); the top two entries of the
model are exactly the two entries the C loop inspects, and `heap_sift`
becomes re-insertion into order. -/

/-- Modelled from the spec: one merge cursor (`struct btree_iter_set`):
the current key `k`, the unvisited rest of the run, and the run's recency
token `seq` (larger = newer run; it replaces the C source's key-address
recency comparison, per the spec's design notes). -/
structure Cursor where
  seq : Nat
  k : Bkey
  rest : List Bkey
  deriving DecidableEq, Repr

/-- The keys a cursor still holds, current key first. -/
def ckeys (c : Cursor) : List Bkey := c.k :: c.rest

/-- `bch_extent_sort_cmp` (extents.c:229): true when `l` sorts after `r` -
larger logical start, or, on equal starts, the older run (so that newer
keys come first among equals). -/
def bch_extent_sort_cmp (l r : Cursor) : Bool :=
  let c := bkey_cmp (START_KEY l.k) (START_KEY r.k)
  if c ≠ 0 then decide (c > 0) else decide (l.seq < r.seq)

/-- Modelled from the spec: insertion into the comparator-sorted cursor
list that models the iterator heap (`cmp c d = true` means `c` sorts
after `d`). -/
def insSorted (cmp : Cursor → Cursor → Bool) (c : Cursor) : List Cursor → List Cursor
  | [] => [c]
  | d :: ds => if cmp c d then d :: insSorted cmp c ds else c :: d :: ds

/-- `sort_key_next` (extents.c:29) combined with the re-sift: advance the
cursor past its current key; a cursor whose run is exhausted leaves the
iterator. -/
def sortKeyNextIns (cmp : Cursor → Cursor → Bool) (i : Cursor) (rest : List Cursor) :
    List Cursor :=
  match i.rest with
  | [] => rest
  | k2 :: ks => insSorted cmp { seq := i.seq, k := k2, rest := ks } rest

/-- One iteration of the `bch_extent_sort_fixup` while-loop
(extents.c:237-267) on the sorted-cursor model: `top` is the heap top and
`i` the best of the remaining cursors (the list's second entry).  `none`
is the loop's break (or fewer than two cursors).  The C source's
`BUG_ON` in the final branch asserts the starts differ there; the model
simply performs the cut the source performs. -/
def bch_extent_sort_fixup_step (d : List Cursor) : Option (List Cursor) :=
  match d with
  | top :: i :: rest =>
    if bkey_cmp top.k (START_KEY i.k) ≤ 0 then none
    else if KEY_SIZE i.k = 0 then
      some (top :: sortKeyNextIns bch_extent_sort_cmp i rest)
    else if top.seq > i.seq then
      if bkey_cmp top.k i.k ≥ 0 then
        some (top :: sortKeyNextIns bch_extent_sort_cmp i rest)
      else
        some (top :: insSorted bch_extent_sort_cmp
                { i with k := bch_cut_front top.k i.k } rest)
    else
      some ({ top with k := bch_cut_back (START_KEY i.k) top.k } :: i :: rest)
  | _ => none

/-- Fixup termination measure for a key. -/
def keyMeasure (k : Bkey) : Nat := 1 + KEY_SIZE k + KEY_OFFSET k

/-- Fixup termination measure for a cursor. -/
def cursorMeasure (c : Cursor) : Nat := ((ckeys c).map keyMeasure).sum

/-- Fixup termination measure for the whole iterator: every fixup
iteration strictly shrinks it. -/
def iterMeasure (d : List Cursor) : Nat := (d.map cursorMeasure).sum

/-- The fixup while-loop, driven by fuel (the measure bounds the number of
iterations, see `fixupLoop_stable`). -/
def fixupLoop (step : List Cursor → Option (List Cursor)) : Nat → List Cursor → List Cursor
  | 0, d => d
  | fuel + 1, d =>
    match step d with
    | none => d
    | some d2 => fixupLoop step fuel d2

/-- `bch_extent_sort_fixup` (extents.c:237): the fixup loop run to its
break condition. -/
def bch_extent_sort_fixup (d : List Cursor) : List Cursor :=
  fixupLoop bch_extent_sort_fixup_step (iterMeasure d + 1) d

/-- Modelled from the spec: `__bch_btree_iter_next` - emit the top
cursor's current key tagged with its run's recency token, advance that
cursor and restore the heap order. -/
def btreeIterNext (cmp : Cursor → Cursor → Bool) :
    List Cursor → Option ((Nat × Bkey) × List Cursor)
  | [] => none
  | c :: rest => some ((c.seq, c.k), sortKeyNextIns cmp c rest)

/-- Modelled from the spec: the merge's driving loop (`btree_mergesort`):
while cursors remain, run the fixup, then emit the top key. -/
def emitGo (cmp : Cursor → Cursor → Bool) (fixup : List Cursor → List Cursor) :
    Nat → List Cursor → List (Nat × Bkey)
  | 0, _ => []
  | fuel + 1, d =>
    match btreeIterNext cmp (fixup d) with
    | none => []
    | some (kv, d2) => kv :: emitGo cmp fixup fuel d2

/-- Modelled from the spec: one cursor per nonempty run, the run's
position (runs listed oldest first) as its recency token. -/
def mkCursors : Nat → List (List Bkey) → List Cursor
  | _, [] => []
  | n, [] :: runs => mkCursors (n + 1) runs
  | n, (k :: ks) :: runs => { seq := n, k := k, rest := ks } :: mkCursors (n + 1) runs

/-- Modelled from the spec: initial iterator over a run set - the cursors
brought into comparator order (the model of the initial min-heap). -/
def mkIter (cmp : Cursor → Cursor → Bool) (runs : List (List Bkey)) : List Cursor :=
  (mkCursors 0 runs).foldr (insSorted cmp) []

/-- Full extent emission from an iterator state: fixup before each
emission until the iterator drains. -/
def emitExtents (d : List Cursor) : List (Nat × Bkey) :=
  emitGo bch_extent_sort_cmp bch_extent_sort_fixup (iterMeasure d + 1) d

/-- Full extent merge of a run set: emission of every key with extent
fixup applied before each emission. -/
def mergeExtentRuns (runs : List (List Bkey)) : List (Nat × Bkey) :=
  emitExtents (mkIter bch_extent_sort_cmp runs)

/-! ### Measure bookkeeping -/

theorem cursorMeasure_pos (c : Cursor) : 0 < cursorMeasure c := by
  unfold cursorMeasure ckeys keyMeasure
  simp

theorem iterMeasure_insSorted (cmp : Cursor → Cursor → Bool) (c : Cursor)
    (l : List Cursor) :
    iterMeasure (insSorted cmp c l) = cursorMeasure c + iterMeasure l := by
  induction l with
  | nil => simp [insSorted, iterMeasure]
  | cons d ds ih =>
    unfold insSorted
    by_cases h : cmp c d = true
    · simp only [h, if_true]
      unfold iterMeasure at ih ⊢
      simp [ih]
      omega
    · simp only [h, if_false]
      unfold iterMeasure
      simp

theorem iterMeasure_sortKeyNextIns (cmp : Cursor → Cursor → Bool) (i : Cursor)
    (rest : List Cursor) :
    iterMeasure (sortKeyNextIns cmp i rest) + keyMeasure i.k =
      cursorMeasure i + iterMeasure rest := by
  unfold sortKeyNextIns
  cases hr : i.rest with
  | nil =>
    unfold cursorMeasure ckeys
    rw [hr]
    simp
    omega
  | cons k2 ks =>
    rw [iterMeasure_insSorted]
    unfold cursorMeasure ckeys
    rw [hr]
    simp
    omega

theorem keyMeasure_pos (k : Bkey) : 0 < keyMeasure k := by
  unfold keyMeasure; omega

theorem iterMeasure_cons (c : Cursor) (l : List Cursor) :
    iterMeasure (c :: l) = cursorMeasure c + iterMeasure l := by
  unfold iterMeasure; simp

theorem cursorMeasure_eq (c : Cursor) :
    cursorMeasure c = keyMeasure c.k + (c.rest.map keyMeasure).sum := by
  unfold cursorMeasure ckeys; simp

theorem keyMeasure_cut_front (w k : Bkey) (h1 : k.offset - k.size < w.offset)
    (h2 : w.offset < k.offset) :
    keyMeasure (bch_cut_front w k) = 1 + (k.offset - w.offset) + k.offset := by
  rw [bch_cut_front_cut w k h1 h2]
  rfl

theorem keyMeasure_cut_back (w k : Bkey) (h : w.offset < k.offset) :
    keyMeasure (bch_cut_back w k) = 1 + (w.offset - (k.offset - k.size)) + w.offset := by
  rw [bch_cut_back_cut w k h]
  rfl

/-- Every fixup iteration strictly decreases the measure. -/
theorem extent_step_measure (d d2 : List Cursor)
    (h : bch_extent_sort_fixup_step d = some d2) :
    iterMeasure d2 < iterMeasure d := by
  obtain _ | ⟨top, _ | ⟨i, rest⟩⟩ := d
  · exact Option.noConfusion h
  · exact Option.noConfusion h
  · simp only [bch_extent_sort_fixup_step] at h
    by_cases h1 : bkey_cmp top.k (START_KEY i.k) ≤ 0
    · rw [if_pos h1] at h; exact Option.noConfusion h
    rw [if_neg h1] at h
    have h1' : i.k.offset - i.k.size < top.k.offset := by
      simp at h1; omega
    by_cases h2 : KEY_SIZE i.k = 0
    · rw [if_pos h2] at h
      injection h with h
      subst h
      have hm := iterMeasure_sortKeyNextIns bch_extent_sort_cmp i rest
      have hp := keyMeasure_pos i.k
      rw [iterMeasure_cons, iterMeasure_cons, iterMeasure_cons]
      omega
    rw [if_neg h2] at h
    by_cases h3 : top.seq > i.seq
    · rw [if_pos h3] at h
      by_cases h4 : bkey_cmp top.k i.k ≥ 0
      · rw [if_pos h4] at h
        injection h with h
        subst h
        have hm := iterMeasure_sortKeyNextIns bch_extent_sort_cmp i rest
        have hp := keyMeasure_pos i.k
        rw [iterMeasure_cons, iterMeasure_cons, iterMeasure_cons]
        omega
      · rw [if_neg h4] at h
        injection h with h
        subst h
        have h4' : top.k.offset < i.k.offset := by simp at h4; omega
        have hcm : cursorMeasure { i with k := bch_cut_front top.k i.k } =
            keyMeasure (bch_cut_front top.k i.k) + (i.rest.map keyMeasure).sum := by
          unfold cursorMeasure ckeys
          simp
        rw [iterMeasure_cons, iterMeasure_cons, iterMeasure_cons,
            iterMeasure_insSorted, hcm, keyMeasure_cut_front top.k i.k h1' h4',
            cursorMeasure_eq i]
        unfold keyMeasure
        simp only [KEY_SIZE_def, KEY_OFFSET_def]
        simp only [KEY_SIZE_def] at h2
        omega
    · rw [if_neg h3] at h
      injection h with h
      subst h
      have h1'' : (START_KEY i.k).offset < top.k.offset := by simp; omega
      have hcm : cursorMeasure { top with k := bch_cut_back (START_KEY i.k) top.k } =
          keyMeasure (bch_cut_back (START_KEY i.k) top.k) + (top.rest.map keyMeasure).sum := by
        unfold cursorMeasure ckeys
        simp
      rw [iterMeasure_cons, iterMeasure_cons, iterMeasure_cons, iterMeasure_cons,
          hcm, keyMeasure_cut_back _ _ h1'', cursorMeasure_eq top]
      unfold keyMeasure
      simp only [KEY_SIZE_def, KEY_OFFSET_def, START_KEY_offset]
      omega

/-- With enough fuel, the fuel amount does not matter. -/
theorem fixupLoop_stable (step : List Cursor → Option (List Cursor))
    (hstep : ∀ d d2, step d = some d2 → iterMeasure d2 < iterMeasure d) :
    ∀ f g d, iterMeasure d < f → iterMeasure d < g →
      fixupLoop step f d = fixupLoop step g d := by
  intro f
  induction f with
  | zero => omega
  | succ n ih =>
    intro g d hf hg
    match g, hg with
    | g2 + 1, hg =>
      unfold fixupLoop
      cases hs : step d with
      | none => rfl
      | some d2 =>
        have := hstep d d2 hs
        exact ih g2 d2 (by omega) (by omega)

/-- With enough fuel the loop reaches the break condition. -/
theorem fixupLoop_no_step (step : List Cursor → Option (List Cursor))
    (hstep : ∀ d d2, step d = some d2 → iterMeasure d2 < iterMeasure d) :
    ∀ f d, iterMeasure d < f → step (fixupLoop step f d) = none := by
  intro f
  induction f with
  | zero => omega
  | succ n ih =>
    intro d hf
    unfold fixupLoop
    cases hs : step d with
    | none => exact hs
    | some d2 =>
      have := hstep d d2 hs
      exact ih d2 (by omega)

/-- The fixup loop never grows the measure. -/
theorem fixupLoop_measure_le (step : List Cursor → Option (List Cursor))
    (hstep : ∀ d d2, step d = some d2 → iterMeasure d2 < iterMeasure d) :
    ∀ f d, iterMeasure (fixupLoop step f d) ≤ iterMeasure d := by
  intro f
  induction f with
  | zero => intro d; exact Nat.le_refl _
  | succ n ih =>
    intro d
    unfold fixupLoop
    cases hs : step d with
    | none => exact Nat.le_refl _
    | some d2 =>
      show iterMeasure (fixupLoop step n d2) ≤ iterMeasure d
      have h1 := hstep d d2 hs
      have h2 := ih d2
      omega

theorem extent_fixup_no_step (d : List Cursor) :
    bch_extent_sort_fixup_step (bch_extent_sort_fixup d) = none :=
  fixupLoop_no_step _ extent_step_measure _ d (by omega)

theorem extent_fixup_measure_le (d : List Cursor) :
    iterMeasure (bch_extent_sort_fixup d) ≤ iterMeasure d :=
  fixupLoop_measure_le _ extent_step_measure _ d

/-- Popping the emitted key strictly decreases the measure. -/
theorem iterNext_measure (cmp : Cursor → Cursor → Bool) (d d2 : List Cursor)
    (kv : Nat × Bkey) (h : btreeIterNext cmp d = some (kv, d2)) :
    iterMeasure d2 < iterMeasure d := by
  match d, h with
  | c :: rest, h =>
    unfold btreeIterNext at h
    simp only [Option.some.injEq, Prod.mk.injEq] at h
    obtain ⟨-, rfl⟩ := h
    have := iterMeasure_sortKeyNextIns cmp c rest
    have := keyMeasure_pos c.k
    unfold iterMeasure at *
    simp at *
    omega

/-- Emission is fuel-independent once the fuel exceeds the measure. -/
theorem emitGo_stable (cmp : Cursor → Cursor → Bool)
    (fixup : List Cursor → List Cursor)
    (hfix : ∀ d, iterMeasure (fixup d) ≤ iterMeasure d) :
    ∀ f g d, iterMeasure d < f → iterMeasure d < g →
      emitGo cmp fixup f d = emitGo cmp fixup g d := by
  intro f
  induction f with
  | zero => omega
  | succ n ih =>
    intro g d hf hg
    match g, hg with
    | g2 + 1, hg =>
      unfold emitGo
      cases hs : btreeIterNext cmp (fixup d) with
      | none => rfl
      | some kvd =>
        obtain ⟨kv, d2⟩ := kvd
        show kv :: emitGo cmp fixup n d2 = kv :: emitGo cmp fixup g2 d2
        have hm := iterNext_measure cmp (fixup d) d2 kv hs
        have hfx := hfix d
        rw [ih g2 d2 (by omega) (by omega)]

/-! ### The extent comparator as an order -/

/-- The extent comparator in raw-field form: `l` is not-after `r` when its
start is smaller, or the starts tie and `l` is at least as new. -/
theorem extent_cmp_false_iff (a b : Cursor) :
    bch_extent_sort_cmp a b = false ↔
      (a.k.offset - a.k.size < b.k.offset - b.k.size ∨
       (a.k.offset - a.k.size = b.k.offset - b.k.size ∧ b.seq ≤ a.seq)) := by
  simp only [bch_extent_sort_cmp, bkey_cmp_def, START_KEY_offset]
  split_ifs with h <;> simp at h ⊢ <;> omega

theorem extent_cmp_total (a b : Cursor) :
    bch_extent_sort_cmp a b = false ∨ bch_extent_sort_cmp b a = false := by
  rw [extent_cmp_false_iff, extent_cmp_false_iff]
  omega

theorem extent_cmp_trans (a b c : Cursor)
    (h1 : bch_extent_sort_cmp a b = false) (h2 : bch_extent_sort_cmp b c = false) :
    bch_extent_sort_cmp a c = false := by
  rw [extent_cmp_false_iff] at *
  omega

/-! ### Sorted insertion -/

theorem mem_insSorted (cmp : Cursor → Cursor → Bool) (c x : Cursor) (l : List Cursor) :
    x ∈ insSorted cmp c l ↔ x = c ∨ x ∈ l := by
  induction l with
  | nil => simp [insSorted]
  | cons d ds ih =>
    unfold insSorted
    by_cases h : cmp c d = true
    · rw [if_pos h]
      simp only [List.mem_cons, ih]
      tauto
    · rw [if_neg h]
      simp only [List.mem_cons]

/-- The state order maintained by the iterator model. -/
def SortedBy (cmp : Cursor → Cursor → Bool) (d : List Cursor) : Prop :=
  d.Pairwise (fun a b => cmp a b = false)

theorem pairwise_insSorted (cmp : Cursor → Cursor → Bool)
    (htot : ∀ a b, cmp a b = false ∨ cmp b a = false)
    (htrans : ∀ a b c, cmp a b = false → cmp b c = false → cmp a c = false)
    (c : Cursor) (l : List Cursor) (hl : SortedBy cmp l) :
    SortedBy cmp (insSorted cmp c l) := by
  induction l with
  | nil => simp [insSorted, SortedBy]
  | cons d ds ih =>
    obtain ⟨hd, hds⟩ := List.pairwise_cons.mp hl
    unfold insSorted
    by_cases h : cmp c d = true
    · rw [if_pos h]
      refine List.pairwise_cons.mpr ⟨?_, ih hds⟩
      intro x hx
      rcases (mem_insSorted cmp c x ds).mp hx with rfl | hx
      · rcases htot x d with h2 | h2
        · rw [h] at h2; exact Bool.noConfusion h2
        · exact h2
      · exact hd x hx
    · rw [if_neg h]
      have hcd : cmp c d = false := Bool.not_eq_true _ ▸ Bool.of_not_eq_true h
      refine List.pairwise_cons.mpr ⟨?_, hl⟩
      intro x hx
      rcases List.mem_cons.mp hx with rfl | hx
      · exact hcd
      · exact htrans c d x hcd (hd x hx)

theorem sortedBy_foldr_insSorted (cmp : Cursor → Cursor → Bool)
    (htot : ∀ a b, cmp a b = false ∨ cmp b a = false)
    (htrans : ∀ a b c, cmp a b = false → cmp b c = false → cmp a c = false)
    (l : List Cursor) :
    SortedBy cmp (l.foldr (insSorted cmp) []) := by
  induction l with
  | nil => simp [SortedBy]
  | cons c cs ih => exact pairwise_insSorted cmp htot htrans c _ ih

theorem mem_foldr_insSorted (cmp : Cursor → Cursor → Bool) (x : Cursor)
    (l : List Cursor) :
    x ∈ l.foldr (insSorted cmp) [] ↔ x ∈ l := by
  induction l with
  | nil => simp
  | cons c cs ih =>
    show x ∈ insSorted cmp c _ ↔ _
    rw [mem_insSorted]
    simp [ih]

/-! ### Well-formed runs and the emission invariant -/

/-- A well-formed run: each key's size fits its offset and consecutive
keys do not overlap (`end ≤ next start`). -/
def chainB : List Bkey → Bool
  | [] => true
  | [k] => decide (k.size ≤ k.offset)
  | k :: k2 :: ks =>
    decide (k.size ≤ k.offset) && decide (k.offset ≤ k2.offset - k2.size) &&
      chainB (k2 :: ks)

theorem chainB_head (k : Bkey) (ks : List Bkey) (h : chainB (k :: ks) = true) :
    k.size ≤ k.offset := by
  cases ks with
  | nil => simpa [chainB] using h
  | cons k2 ks2 =>
    simp only [chainB, Bool.and_eq_true, decide_eq_true_eq] at h
    exact h.1.1

theorem chainB_tail (k : Bkey) (ks : List Bkey) (h : chainB (k :: ks) = true) :
    chainB ks = true := by
  cases ks with
  | nil => rfl
  | cons k2 ks2 =>
    simp only [chainB, Bool.and_eq_true] at h
    exact h.2

theorem chainB_link (k k2 : Bkey) (ks : List Bkey)
    (h : chainB (k :: k2 :: ks) = true) : k.offset ≤ k2.offset - k2.size := by
  simp only [chainB, Bool.and_eq_true, decide_eq_true_eq] at h
  exact h.1.2

theorem chainB_head_le (k : Bkey) (ks : List Bkey) (h : chainB (k :: ks) = true) :
    ∀ k2 ∈ ks, k.offset ≤ k2.offset - k2.size := by
  induction ks generalizing k with
  | nil => intro k2 hk2; simp at hk2
  | cons k2 ks2 ih =>
    intro k3 hk3
    rcases List.mem_cons.mp hk3 with rfl | hk3
    · exact chainB_link k k3 ks2 h
    · have h2 := ih k2 (chainB_tail k _ h) k3 hk3
      have h1 := chainB_link k k2 ks2 h
      omega

/-- All cursors hold well-formed runs. -/
def WfCur (d : List Cursor) : Prop := ∀ c ∈ d, chainB (ckeys c) = true

/-- Every key still in the iterator starts at or after `e` (the end of the
last emitted key). -/
def BoundCur (e : Nat) (d : List Cursor) : Prop :=
  ∀ c ∈ d, ∀ k ∈ ckeys c, e ≤ k.offset - k.size

@[simp] theorem ckeys_def (c : Cursor) : ckeys c = c.k :: c.rest := rfl

/-- The advanced successor of the second cursor still sorts after the
top: its start is at least the second key's end, which is at least the
top's start. -/
theorem cmp_top_advanced (top i : Cursor) (k2 : Bkey) (ks : List Bkey)
    (hti : bch_extent_sort_cmp top i = false)
    (hwi : chainB (ckeys i) = true) (hr : i.rest = k2 :: ks) :
    bch_extent_sort_cmp top { seq := i.seq, k := k2, rest := ks } = false := by
  have hlink : i.k.offset ≤ k2.offset - k2.size := by
    have h := chainB_head_le i.k i.rest (by simpa using hwi)
    exact h k2 (by rw [hr]; simp)
  rw [extent_cmp_false_iff] at hti ⊢
  simp only at hti ⊢
  omega

/-- Invariant preservation when the fixup drops the second cursor's
current key (`sort_key_next` + re-sift). -/
theorem drop_second_inv (e : Nat) (top i : Cursor) (rest : List Cursor)
    (hs : SortedBy bch_extent_sort_cmp (top :: i :: rest))
    (hw : WfCur (top :: i :: rest)) (hb : BoundCur e (top :: i :: rest)) :
    SortedBy bch_extent_sort_cmp (top :: sortKeyNextIns bch_extent_sort_cmp i rest) ∧
    WfCur (top :: sortKeyNextIns bch_extent_sort_cmp i rest) ∧
    BoundCur e (top :: sortKeyNextIns bch_extent_sort_cmp i rest) := by
  obtain ⟨htop, hs2⟩ := List.pairwise_cons.mp hs
  obtain ⟨hi, hrest⟩ := List.pairwise_cons.mp hs2
  have hti : bch_extent_sort_cmp top i = false := htop i (by simp)
  have hwi : chainB (ckeys i) = true := hw i (by simp)
  unfold sortKeyNextIns
  cases hr : i.rest with
  | nil =>
    refine ⟨List.pairwise_cons.mpr ⟨fun x hx => htop x (by simp [hx]), hrest⟩, ?_, ?_⟩
    · intro c hc
      rcases List.mem_cons.mp hc with rfl | hc
      · exact hw c (by simp)
      · exact hw c (by simp [hc])
    · intro c hc k hk
      rcases List.mem_cons.mp hc with rfl | hc
      · exact hb c (by simp) k hk
      · exact hb c (by simp [hc]) k hk
  | cons k2 ks =>
    have hadv := cmp_top_advanced top i k2 ks hti hwi hr
    refine ⟨?_, ?_, ?_⟩
    · refine List.pairwise_cons.mpr
        ⟨?_, pairwise_insSorted _ extent_cmp_total extent_cmp_trans _ _ hrest⟩
      intro x hx
      rcases (mem_insSorted _ _ _ _).mp hx with rfl | hx
      · exact hadv
      · exact htop x (by simp [hx])
    · intro c hc
      rcases List.mem_cons.mp hc with rfl | hc
      · exact hw c (by simp)
      rcases (mem_insSorted _ _ _ _).mp hc with rfl | hc
      · show chainB (k2 :: ks) = true
        have h2 := chainB_tail i.k i.rest (by simpa using hwi)
        rw [hr] at h2
        exact h2
      · exact hw c (by simp [hc])
    · intro c hc k hk
      rcases List.mem_cons.mp hc with rfl | hc
      · exact hb c (by simp) k hk
      rcases (mem_insSorted _ _ _ _).mp hc with rfl | hc
      · refine hb i (by simp) k ?_
        simp only [ckeys_def, hr] at hk ⊢
        exact List.mem_cons_of_mem _ hk
      · exact hb c (by simp [hc]) k hk

/-- Invariant preservation over one fixup iteration. -/
theorem extent_step_inv (e : Nat) (d d2 : List Cursor)
    (h : bch_extent_sort_fixup_step d = some d2)
    (hs : SortedBy bch_extent_sort_cmp d) (hw : WfCur d) (hb : BoundCur e d) :
    SortedBy bch_extent_sort_cmp d2 ∧ WfCur d2 ∧ BoundCur e d2 := by
  obtain _ | ⟨top, _ | ⟨i, rest⟩⟩ := d
  · exact Option.noConfusion h
  · exact Option.noConfusion h
  simp only [bch_extent_sort_fixup_step] at h
  obtain ⟨htop, hs2⟩ := List.pairwise_cons.mp hs
  obtain ⟨hi, hrest⟩ := List.pairwise_cons.mp hs2
  have hti : bch_extent_sort_cmp top i = false := htop i (by simp)
  have hti' := (extent_cmp_false_iff top i).mp hti
  have hwt : chainB (ckeys top) = true := hw top (by simp)
  have hwi : chainB (ckeys i) = true := hw i (by simp)
  by_cases h1 : bkey_cmp top.k (START_KEY i.k) ≤ 0
  · rw [if_pos h1] at h; exact Option.noConfusion h
  rw [if_neg h1] at h
  have h1' : i.k.offset - i.k.size < top.k.offset := by simp at h1; omega
  by_cases h2 : KEY_SIZE i.k = 0
  · rw [if_pos h2] at h
    injection h with h
    subst h
    exact drop_second_inv e top i rest hs hw hb
  rw [if_neg h2] at h
  by_cases h3 : top.seq > i.seq
  · rw [if_pos h3] at h
    by_cases h4 : bkey_cmp top.k i.k ≥ 0
    · rw [if_pos h4] at h
      injection h with h
      subst h
      exact drop_second_inv e top i rest hs hw hb
    · rw [if_neg h4] at h
      injection h with h
      subst h
      have h4' : top.k.offset < i.k.offset := by simp at h4; omega
      have hcut := bch_cut_front_cut top.k i.k h1' h4'
      have hoff : (bch_cut_front top.k i.k).offset = i.k.offset := by rw [hcut]
      have hsz : (bch_cut_front top.k i.k).size = i.k.offset - top.k.offset := by rw [hcut]
      have hstart : (bch_cut_front top.k i.k).offset - (bch_cut_front top.k i.k).size =
          top.k.offset := by rw [hoff, hsz]; omega
      refine ⟨?_, ?_, ?_⟩
      · refine List.pairwise_cons.mpr
          ⟨?_, pairwise_insSorted _ extent_cmp_total extent_cmp_trans _ _ hrest⟩
        intro x hx
        rcases (mem_insSorted _ _ _ _).mp hx with rfl | hx
        · rw [extent_cmp_false_iff]
          simp only [hstart]
          have hc1 : top.k.offset - top.k.size ≤ top.k.offset := Nat.sub_le _ _
          omega
        · exact htop x (by simp [hx])
      · intro c hc
        rcases List.mem_cons.mp hc with rfl | hc
        · exact hwt
        rcases (mem_insSorted _ _ _ _).mp hc with rfl | hc
        · show chainB (bch_cut_front top.k i.k :: i.rest) = true
          cases hr : i.rest with
          | nil =>
            simp only [chainB, decide_eq_true_eq, hsz, hoff]
            omega
          | cons k2 ks =>
            have hlink := chainB_link i.k k2 ks (by rw [← hr]; simpa using hwi)
            have htl := chainB_tail i.k i.rest (by simpa using hwi)
            rw [hr] at htl
            simp only [chainB, Bool.and_eq_true, decide_eq_true_eq, hsz, hoff]
            exact ⟨⟨by omega, by omega⟩, htl⟩
        · exact hw c (by simp [hc])
      · intro c hc k hk
        rcases List.mem_cons.mp hc with rfl | hc
        · exact hb c (by simp) k hk
        rcases (mem_insSorted _ _ _ _).mp hc with rfl | hc
        · simp only [ckeys_def] at hk
          rcases List.mem_cons.mp hk with rfl | hk
          · rw [hstart]
            have hbt := hb top (by simp) top.k (by simp)
            omega
          · exact hb i (by simp) k (by simp [hk])
        · exact hb c (by simp [hc]) k hk
  · rw [if_neg h3] at h
    injection h with h
    subst h
    have h1'' : (START_KEY i.k).offset < top.k.offset := by simp; omega
    have hcut := bch_cut_back_cut (START_KEY i.k) top.k h1''
    have hoff : (bch_cut_back (START_KEY i.k) top.k).offset = i.k.offset - i.k.size := by
      rw [hcut]
      simp
    have hsz : (bch_cut_back (START_KEY i.k) top.k).size =
        (i.k.offset - i.k.size) - (top.k.offset - top.k.size) := by
      rw [hcut]
      simp
    have hstart : (bch_cut_back (START_KEY i.k) top.k).offset -
        (bch_cut_back (START_KEY i.k) top.k).size = top.k.offset - top.k.size := by
      rw [hoff, hsz]
      omega
    refine ⟨?_, ?_, ?_⟩
    · refine List.pairwise_cons.mpr ⟨?_, hs2⟩
      intro x hx
      have hx2 := htop x hx
      rw [extent_cmp_false_iff] at hx2 ⊢
      simp only [hstart]
      exact hx2
    · intro c hc
      rcases List.mem_cons.mp hc with rfl | hc
      · show chainB (bch_cut_back (START_KEY i.k) top.k :: top.rest) = true
        cases hr : top.rest with
        | nil =>
          simp only [chainB, decide_eq_true_eq, hsz, hoff]
          omega
        | cons k2 ks =>
          have hlink := chainB_link top.k k2 ks (by rw [← hr]; simpa using hwt)
          have htl := chainB_tail top.k top.rest (by simpa using hwt)
          rw [hr] at htl
          simp only [chainB, Bool.and_eq_true, decide_eq_true_eq, hsz, hoff]
          exact ⟨⟨by omega, by omega⟩, htl⟩
      · exact hw c (by simp [hc])
    · intro c hc k hk
      rcases List.mem_cons.mp hc with rfl | hc
      · simp only [ckeys_def] at hk
        rcases List.mem_cons.mp hk with rfl | hk
        · rw [hstart]
          exact hb top (by simp) top.k (by simp)
        · exact hb top (by simp) k (by simp [hk])
      · exact hb c (by simp [hc]) k hk

/-- Invariant preservation over the whole fixup loop. -/
theorem fixupLoop_inv (e : Nat) :
    ∀ f d, SortedBy bch_extent_sort_cmp d → WfCur d → BoundCur e d →
      SortedBy bch_extent_sort_cmp (fixupLoop bch_extent_sort_fixup_step f d) ∧
      WfCur (fixupLoop bch_extent_sort_fixup_step f d) ∧
      BoundCur e (fixupLoop bch_extent_sort_fixup_step f d) := by
  intro f
  induction f with
  | zero => intro d hs hw hb; exact ⟨hs, hw, hb⟩
  | succ n ih =>
    intro d hs hw hb
    unfold fixupLoop
    cases hst : bch_extent_sort_fixup_step d with
    | none => exact ⟨hs, hw, hb⟩
    | some d2 =>
      obtain ⟨hs2, hw2, hb2⟩ := extent_step_inv e d d2 hst hs hw hb
      exact ih d2 hs2 hw2 hb2

/-- The fixup loop only breaks (with two or more cursors) when the top key
ends at or before the second entry's start. -/
theorem step_none_break (top i : Cursor) (rest : List Cursor)
    (h : bch_extent_sort_fixup_step (top :: i :: rest) = none) :
    bkey_cmp top.k (START_KEY i.k) ≤ 0 := by
  simp only [bch_extent_sort_fixup_step] at h
  by_cases h1 : bkey_cmp top.k (START_KEY i.k) ≤ 0
  · exact h1
  rw [if_neg h1] at h
  by_cases h2 : KEY_SIZE i.k = 0
  · rw [if_pos h2] at h; exact Option.noConfusion h
  rw [if_neg h2] at h
  by_cases h3 : top.seq > i.seq
  · rw [if_pos h3] at h
    by_cases h4 : bkey_cmp top.k i.k ≥ 0
    · rw [if_pos h4] at h; exact Option.noConfusion h
    · rw [if_neg h4] at h; exact Option.noConfusion h
  · rw [if_neg h3] at h; exact Option.noConfusion h

/-- After the fixup loop breaks, popping the top key is sound: the emitted
key starts at or after the bound, is well-formed, and everything remaining
starts at or after its end. -/
theorem extent_pop_inv (e : Nat) (c : Cursor) (rest : List Cursor)
    (hnone : bch_extent_sort_fixup_step (c :: rest) = none)
    (hs : SortedBy bch_extent_sort_cmp (c :: rest))
    (hw : WfCur (c :: rest)) (hb : BoundCur e (c :: rest)) :
    e ≤ c.k.offset - c.k.size ∧ c.k.size ≤ c.k.offset ∧
    SortedBy bch_extent_sort_cmp (sortKeyNextIns bch_extent_sort_cmp c rest) ∧
    WfCur (sortKeyNextIns bch_extent_sort_cmp c rest) ∧
    BoundCur c.k.offset (sortKeyNextIns bch_extent_sort_cmp c rest) := by
  obtain ⟨hc, hs2⟩ := List.pairwise_cons.mp hs
  have hwc : chainB (ckeys c) = true := hw c (by simp)
  have hcfut : ∀ k ∈ c.rest, c.k.offset ≤ k.offset - k.size :=
    chainB_head_le c.k c.rest (by simpa using hwc)
  have hbound : ∀ x ∈ rest, ∀ k ∈ ckeys x, c.k.offset ≤ k.offset - k.size := by
    intro x hx k hk
    cases rest with
    | nil => simp at hx
    | cons i rest2 =>
      have hbrk : c.k.offset ≤ i.k.offset - i.k.size := by
        have h := step_none_break c i rest2 hnone
        simpa using h
      have hix : i.k.offset - i.k.size ≤ x.k.offset - x.k.size := by
        rcases List.mem_cons.mp hx with rfl | hx2
        · exact Nat.le_refl _
        · have h2 := (List.pairwise_cons.mp hs2).1 x hx2
          rw [extent_cmp_false_iff] at h2
          omega
      simp only [ckeys_def] at hk
      rcases List.mem_cons.mp hk with rfl | hk2
      · omega
      · have hfut := chainB_head_le x.k x.rest (by simpa using hw x (by simp [hx])) k hk2
        have hsub : x.k.offset - x.k.size ≤ x.k.offset := Nat.sub_le _ _
        omega
  refine ⟨hb c (by simp) c.k (by simp),
          chainB_head c.k c.rest (by simpa using hwc), ?_, ?_, ?_⟩
  · unfold sortKeyNextIns
    cases hr : c.rest with
    | nil => exact hs2
    | cons k2 ks => exact pairwise_insSorted _ extent_cmp_total extent_cmp_trans _ _ hs2
  · unfold sortKeyNextIns
    cases hr : c.rest with
    | nil => intro x hx; exact hw x (by simp [hx])
    | cons k2 ks =>
      intro x hx
      rcases (mem_insSorted _ _ _ _).mp hx with rfl | hx
      · show chainB (k2 :: ks) = true
        have h2 := chainB_tail c.k c.rest (by simpa using hwc)
        rw [hr] at h2
        exact h2
      · exact hw x (by simp [hx])
  · unfold sortKeyNextIns
    cases hr : c.rest with
    | nil => exact hbound
    | cons k2 ks =>
      intro x hx k hk
      rcases (mem_insSorted _ _ _ _).mp hx with rfl | hx
      · simp only [ckeys_def] at hk
        refine hcfut k ?_
        rw [hr]
        exact hk
      · exact hbound x hx k hk

/-- The emitted tagged keys form a chain: each key starts at or after the
bound, is well-formed, and the next link starts from its end. -/
def ChainFrom : Nat → List (Nat × Bkey) → Prop
  | _, [] => True
  | e, p :: ps =>
    e ≤ p.2.offset - p.2.size ∧ p.2.size ≤ p.2.offset ∧ ChainFrom p.2.offset ps

/-- The central induction: emission under the invariants yields a chain. -/
theorem emit_chain :
    ∀ fuel (e : Nat) (d : List Cursor), iterMeasure d < fuel →
      SortedBy bch_extent_sort_cmp d → WfCur d → BoundCur e d →
      ChainFrom e (emitGo bch_extent_sort_cmp bch_extent_sort_fixup fuel d) := by
  intro fuel
  induction fuel with
  | zero => omega
  | succ n ih =>
    intro e d hf hs hw hb
    obtain ⟨hs2, hw2, hb2⟩ := fixupLoop_inv e (iterMeasure d + 1) d hs hw hb
    have hs2' : SortedBy bch_extent_sort_cmp (bch_extent_sort_fixup d) := hs2
    have hw2' : WfCur (bch_extent_sort_fixup d) := hw2
    have hb2' : BoundCur e (bch_extent_sort_fixup d) := hb2
    have hμ := extent_fixup_measure_le d
    unfold emitGo
    cases hfo : bch_extent_sort_fixup d with
    | nil => exact trivial
    | cons c rest =>
      rw [hfo] at hs2' hw2' hb2' hμ
      have hnone : bch_extent_sort_fixup_step (c :: rest) = none := by
        rw [← hfo]
        exact extent_fixup_no_step d
      obtain ⟨he, hwf, hs3, hw3, hb3⟩ := extent_pop_inv e c rest hnone hs2' hw2' hb2'
      show ChainFrom e ((c.seq, c.k) ::
        emitGo bch_extent_sort_cmp bch_extent_sort_fixup n
          (sortKeyNextIns bch_extent_sort_cmp c rest))
      refine ⟨he, hwf, ?_⟩
      refine ih c.k.offset _ ?_ hs3 hw3 hb3
      have hd := iterMeasure_sortKeyNextIns bch_extent_sort_cmp c rest
      have hp := keyMeasure_pos c.k
      have hcr : iterMeasure (c :: rest) = cursorMeasure c + iterMeasure rest :=
        iterMeasure_cons c rest
      have hcm : cursorMeasure c = keyMeasure c.k + (c.rest.map keyMeasure).sum :=
        cursorMeasure_eq c
      omega

theorem ChainFrom_le (e : Nat) (l : List (Nat × Bkey)) (h : ChainFrom e l) :
    ∀ p ∈ l, e ≤ p.2.offset - p.2.size := by
  induction l generalizing e with
  | nil => intro p hp; simp at hp
  | cons q ps ih =>
    obtain ⟨h1, h2, h3⟩ := h
    intro p hp
    rcases List.mem_cons.mp hp with rfl | hp
    · exact h1
    · have h4 := ih q.2.offset h3 p hp
      have h5 : q.2.offset - q.2.size ≤ q.2.offset := Nat.sub_le _ _
      omega

theorem ChainFrom_pairwise (e : Nat) (l : List (Nat × Bkey)) (h : ChainFrom e l) :
    l.Pairwise (fun p q => p.2.offset ≤ q.2.offset - q.2.size) := by
  induction l generalizing e with
  | nil => exact List.Pairwise.nil
  | cons p ps ih =>
    obtain ⟨h1, h2, h3⟩ := h
    exact List.pairwise_cons.mpr ⟨ChainFrom_le _ _ h3, ih _ h3⟩

/-- A key covers a logical address when it lies in the half-open range
`[start, end)`. -/
def covers (k : Bkey) (a : Nat) : Prop := KEY_START k ≤ a ∧ a < KEY_OFFSET k

instance (k : Bkey) (a : Nat) : Decidable (covers k a) := by
  unfold covers
  infer_instance

/-- Two keys with disjoint half-open logical ranges. -/
def rangesDisjoint (k1 k2 : Bkey) : Prop := ∀ a, ¬ (covers k1 a ∧ covers k2 a)

theorem rangesDisjoint_of_le (k1 k2 : Bkey) (h : KEY_OFFSET k1 ≤ KEY_START k2) :
    rangesDisjoint k1 k2 := by
  intro a ha
  obtain ⟨⟨_, ha1⟩, ⟨ha2, _⟩⟩ := ha
  simp only [KEY_START_def, KEY_OFFSET_def] at *
  omega

theorem mem_mkCursors (runs : List (List Bkey)) (c : Cursor) :
    ∀ n, c ∈ mkCursors n runs → ∃ r ∈ runs, ckeys c = r := by
  induction runs with
  | nil => intro n hc; simp [mkCursors] at hc
  | cons r rs ih =>
    intro n hc
    cases r with
    | nil =>
      simp only [mkCursors] at hc
      obtain ⟨r2, h1, h2⟩ := ih (n + 1) hc
      exact ⟨r2, by simp [h1], h2⟩
    | cons k ks =>
      simp only [mkCursors] at hc
      rcases List.mem_cons.mp hc with rfl | hc
      · exact ⟨k :: ks, by simp, rfl⟩
      · obtain ⟨r2, h1, h2⟩ := ih (n + 1) hc
        exact ⟨r2, by simp [h1], h2⟩

theorem mkIter_inv (runs : List (List Bkey)) (h : ∀ r ∈ runs, chainB r = true) :
    SortedBy bch_extent_sort_cmp (mkIter bch_extent_sort_cmp runs) ∧
    WfCur (mkIter bch_extent_sort_cmp runs) ∧
    BoundCur 0 (mkIter bch_extent_sort_cmp runs) := by
  refine ⟨sortedBy_foldr_insSorted _ extent_cmp_total extent_cmp_trans _, ?_, ?_⟩
  · intro c hc
    have hm := (mem_foldr_insSorted _ _ _).mp hc
    obtain ⟨r, hr, he⟩ := mem_mkCursors runs c 0 hm
    rw [he]
    exact h r hr
  · intro c hc k hk
    exact Nat.zero_le _

/-- C1: for every set of well-formed runs (each run sorted with
non-overlapping keys), the extent sort-fixup followed by full emission
yields keys whose half-open logical ranges `[start, end)` are pairwise
disjoint. -/
theorem C1_overlap_free (runs : List (List Bkey))
    (h : ∀ r ∈ runs, chainB r = true) :
    (mergeExtentRuns runs).Pairwise (fun p q => rangesDisjoint p.2 q.2) := by
  obtain ⟨hs, hw, hb⟩ := mkIter_inv runs h
  have hchain := emit_chain (iterMeasure (mkIter bch_extent_sort_cmp runs) + 1) 0
      (mkIter bch_extent_sort_cmp runs) (by omega) hs hw hb
  have hpw := ChainFrom_pairwise _ _ hchain
  unfold mergeExtentRuns emitExtents
  refine List.Pairwise.imp ?_ hpw
  intro p q hpq
  exact rangesDisjoint_of_le _ _ (by simpa using hpq)

/-- Keys of the C1 witness: an older run holding `[0,20)` and a newer run
holding `[5,10)`. -/
def c1KeyOld : Bkey :=
  { offset := 20, size := 20, ptrs := [], deleted := false, cached := false,
    csum := none }

/-- The newer key of the C1 witness. -/
def c1KeyNew : Bkey :=
  { offset := 10, size := 5, ptrs := [], deleted := false, cached := false,
    csum := none }

/-- Witness for `C1_overlap_free` at a two-run set with overlapping keys. -/
theorem C1_witness :
    (∀ r ∈ [[c1KeyOld], [c1KeyNew]], chainB r = true) ∧
    (mergeExtentRuns [[c1KeyOld], [c1KeyNew]]).Pairwise
      (fun p q => rangesDisjoint p.2 q.2) :=
  ⟨by decide, C1_overlap_free _ (by decide)⟩

/-! ### Single-run emission (claims C5, C6) -/

/-- The fixup loop does nothing on fewer than two cursors. -/
theorem fixup_single (c : Cursor) : bch_extent_sort_fixup [c] = [c] := by
  unfold bch_extent_sort_fixup fixupLoop
  rfl

theorem extent_fixup_nil : bch_extent_sort_fixup [] = [] := rfl

theorem emitGo_ext_nil :
    ∀ f, emitGo bch_extent_sort_cmp bch_extent_sort_fixup f [] = [] := by
  intro f
  cases f with
  | zero => rfl
  | succ n => rfl

/-- A single-cursor iterator emits its run verbatim. -/
theorem emitGo_single (seq : Nat) :
    ∀ fuel (k : Bkey) (ks : List Bkey),
      iterMeasure [{ seq := seq, k := k, rest := ks }] < fuel →
      emitGo bch_extent_sort_cmp bch_extent_sort_fixup fuel
          [{ seq := seq, k := k, rest := ks }] =
        (k :: ks).map (fun k2 => (seq, k2)) := by
  intro fuel
  induction fuel with
  | zero => omega
  | succ n ih =>
    intro k ks hf
    unfold emitGo
    rw [fixup_single]
    cases ks with
    | nil =>
      show (seq, k) :: emitGo bch_extent_sort_cmp bch_extent_sort_fixup n [] = [(seq, k)]
      rw [emitGo_ext_nil]
    | cons k2 ks2 =>
      show (seq, k) :: emitGo bch_extent_sort_cmp bch_extent_sort_fixup n
          (insSorted bch_extent_sort_cmp { seq := seq, k := k2, rest := ks2 } []) =
        (seq, k) :: ((k2 :: ks2).map (fun k3 => (seq, k3)))
      have hone : insSorted bch_extent_sort_cmp { seq := seq, k := k2, rest := ks2 } [] =
          [{ seq := seq, k := k2, rest := ks2 }] := rfl
      rw [hone, ih k2 ks2 ?_]
      have h1 : iterMeasure [{ seq := seq, k := k, rest := k2 :: ks2 }] =
          cursorMeasure { seq := seq, k := k, rest := k2 :: ks2 } :=
        by unfold iterMeasure; simp
      have h2 : iterMeasure [{ seq := seq, k := k2, rest := ks2 }] =
          cursorMeasure { seq := seq, k := k2, rest := ks2 } :=
        by unfold iterMeasure; simp
      have h3 := cursorMeasure_eq { seq := seq, k := k, rest := k2 :: ks2 }
      have h4 := cursorMeasure_eq { seq := seq, k := k2, rest := ks2 }
      have h5 := keyMeasure_pos k
      simp only [List.map_cons, List.sum_cons] at h3 h4
      omega

/-- Merging a single run emits it verbatim, tagged with recency token 0. -/
theorem merge_single_run (ks : List Bkey) :
    mergeExtentRuns [ks] = ks.map (fun k => (0, k)) := by
  cases ks with
  | nil => rfl
  | cons k ks2 =>
    unfold mergeExtentRuns emitExtents
    have hmk : mkIter bch_extent_sort_cmp [k :: ks2] =
        [{ seq := 0, k := k, rest := ks2 }] := rfl
    rw [hmk]
    exact emitGo_single 0 _ k ks2 (by omega)

/-- C6: re-running the sort-fixup merge on the already-fixed-up emitted
sequence, treated as a single sorted run, changes nothing: every key is
emitted unmodified, in order, and none is dropped or trimmed (with a
single cursor the fixup loop never runs). -/
theorem C6_idempotent (runs : List (List Bkey)) :
    mergeExtentRuns [(mergeExtentRuns runs).map Prod.snd] =
      (mergeExtentRuns runs).map (fun p => (0, p.2)) := by
  rw [merge_single_run]
  rw [List.map_map]
  rfl

/-- C5 (amended): whenever a size-0 key sits in the heap's second position
while the top key's range reaches past its position (`top.end >
second.offset`), that key is dropped - the emission is exactly the
emission with that cursor advanced past the key.  (Without the overlap
condition the key is not dropped; it can reach the top and be emitted,
see `C5_counterexample`.) -/
theorem C5_zero_second_dropped (top i : Cursor) (rest : List Cursor)
    (hover : ¬ bkey_cmp top.k (START_KEY i.k) ≤ 0)
    (hzero : KEY_SIZE i.k = 0) :
    emitExtents (top :: i :: rest) =
      emitExtents (top :: sortKeyNextIns bch_extent_sort_cmp i rest) := by
  have hstep : bch_extent_sort_fixup_step (top :: i :: rest) =
      some (top :: sortKeyNextIns bch_extent_sort_cmp i rest) := by
    simp only [bch_extent_sort_fixup_step]
    rw [if_neg hover, if_pos hzero]
  have hμ : iterMeasure (top :: sortKeyNextIns bch_extent_sort_cmp i rest) <
      iterMeasure (top :: i :: rest) := extent_step_measure _ _ hstep
  have hfix : bch_extent_sort_fixup (top :: i :: rest) =
      bch_extent_sort_fixup (top :: sortKeyNextIns bch_extent_sort_cmp i rest) := by
    unfold bch_extent_sort_fixup
    have h1 : fixupLoop bch_extent_sort_fixup_step
        (iterMeasure (top :: i :: rest) + 1) (top :: i :: rest) =
        fixupLoop bch_extent_sort_fixup_step (iterMeasure (top :: i :: rest))
          (top :: sortKeyNextIns bch_extent_sort_cmp i rest) := by
      show (match bch_extent_sort_fixup_step (top :: i :: rest) with
            | none => top :: i :: rest
            | some d2 => fixupLoop bch_extent_sort_fixup_step
                (iterMeasure (top :: i :: rest)) d2) =
          fixupLoop bch_extent_sort_fixup_step (iterMeasure (top :: i :: rest))
            (top :: sortKeyNextIns bch_extent_sort_cmp i rest)
      rw [hstep]
    rw [h1]
    exact fixupLoop_stable _ extent_step_measure _ _ _ (by omega) (by omega)
  unfold emitExtents
  unfold emitGo
  rw [hfix]
  cases hnx : btreeIterNext bch_extent_sort_cmp
      (bch_extent_sort_fixup (top :: sortKeyNextIns bch_extent_sort_cmp i rest)) with
  | none => rfl
  | some kvd =>
    obtain ⟨kv, d3⟩ := kvd
    show kv :: emitGo bch_extent_sort_cmp bch_extent_sort_fixup
        (iterMeasure (top :: i :: rest)) d3 =
      kv :: emitGo bch_extent_sort_cmp bch_extent_sort_fixup
        (iterMeasure (top :: sortKeyNextIns bch_extent_sort_cmp i rest)) d3
    have h3 := iterNext_measure _ _ _ _ hnx
    have h4 := extent_fixup_measure_le (top :: sortKeyNextIns bch_extent_sort_cmp i rest)
    rw [emitGo_stable _ _ extent_fixup_measure_le (iterMeasure (top :: i :: rest))
        (iterMeasure (top :: sortKeyNextIns bch_extent_sort_cmp i rest)) d3
        (by omega) (by omega)]

/-- The zero-size key of the C5 example. -/
def zeroKey500 : Bkey :=
  { offset := 500, size := 0, ptrs := [], deleted := false, cached := false,
    csum := none }

/-- C5 counterexample: a run whose next candidate is `{offset 500, size 0}`
does not always have that key skipped - with no overlapping top key (here:
a single run) the size-0 key is emitted. -/
theorem C5_counterexample :
    KEY_SIZE zeroKey500 = 0 ∧
    (0, zeroKey500) ∈ mergeExtentRuns [[zeroKey500]] := by
  exact ⟨rfl, by decide⟩

/-- The overlapping top key of the C5 witness: `[450, 550)`. -/
def c5TopKey : Bkey :=
  { offset := 550, size := 100, ptrs := [], deleted := false, cached := false,
    csum := none }

/-- Witness for `C5_zero_second_dropped` at the claim's example key. -/
theorem C5_witness :
    (¬ bkey_cmp c5TopKey (START_KEY zeroKey500) ≤ 0) ∧
    KEY_SIZE zeroKey500 = 0 ∧
    emitExtents [{ seq := 1, k := c5TopKey, rest := [] },
                 { seq := 0, k := zeroKey500, rest := [] }] =
      emitExtents ({ seq := 1, k := c5TopKey, rest := [] } ::
        sortKeyNextIns bch_extent_sort_cmp { seq := 0, k := zeroKey500, rest := [] } []) :=
  ⟨by decide, rfl,
   C5_zero_second_dropped { seq := 1, k := c5TopKey, rest := [] }
     { seq := 0, k := zeroKey500, rest := [] } [] (by decide) rfl⟩

/-! ### Two-run merges (claim C2)

In a two-run merge the fixup only ever pits a key of one run against a key
of the other, and every trimming branch of `bch_extent_sort_fixup` trims
or drops the key of the OLDER cursor, so keys of the newer run are emitted
unmodified.  (With three or more runs this fails - see
`C2_counterexample`.) -/

/-- `rem2` is `rem` with some leading size-0 keys removed (the zero-size
keys the fixup may drop from the newer run). -/
def ZDrop (rem rem2 : List Bkey) : Prop :=
  ∃ pre, rem = pre ++ rem2 ∧ ∀ z ∈ pre, z.size = 0

theorem ZDrop_refl (rem : List Bkey) : ZDrop rem rem := ⟨[], rfl, by simp⟩

theorem ZDrop_cons (z : Bkey) (rem rem2 : List Bkey) (hz : z.size = 0)
    (h : ZDrop rem rem2) : ZDrop (z :: rem) rem2 := by
  obtain ⟨pre, h1, h2⟩ := h
  refine ⟨z :: pre, by simp [h1], ?_⟩
  intro x hx
  rcases List.mem_cons.mp hx with rfl | hx
  · exact hz
  · exact h2 x hx

theorem ZDrop_mem (rem rem2 : List Bkey) (h : ZDrop rem rem2) (k : Bkey)
    (hk : k ∈ rem2) : k ∈ rem := by
  obtain ⟨pre, h1, -⟩ := h
  rw [h1]
  simp [hk]

theorem ZDrop_pos_mem (rem rem2 : List Bkey) (h : ZDrop rem rem2) (k : Bkey)
    (hk : k ∈ rem) (hsz : 0 < k.size) : k ∈ rem2 := by
  obtain ⟨pre, h1, h2⟩ := h
  rw [h1] at hk
  rcases List.mem_append.mp hk with hk | hk
  · have := h2 k hk
    omega
  · exact hk

theorem ZDrop_trans (r1 r2 r3 : List Bkey) (h1 : ZDrop r1 r2) (h2 : ZDrop r2 r3) :
    ZDrop r1 r3 := by
  obtain ⟨p1, e1, z1⟩ := h1
  obtain ⟨p2, e2, z2⟩ := h2
  refine ⟨p1 ++ p2, by rw [e1, e2, List.append_assoc], ?_⟩
  intro x hx
  rcases List.mem_append.mp hx with hx | hx
  · exact z1 x hx
  · exact z2 x hx

/-- Shape of a two-run iterator state: at most two cursors, recency tokens
0 (older run) and 1 (newer run), the seq-1 cursor holding exactly the
not-yet-emitted suffix `rem` of the newer run. -/
def TwoRun (rem : List Bkey) : List Cursor → Prop
  | [] => rem = []
  | [c] => (c.seq = 0 ∧ rem = []) ∨ (c.seq = 1 ∧ ckeys c = rem)
  | [c1, c2] =>
    (c1.seq = 0 ∧ c2.seq = 1 ∧ ckeys c2 = rem) ∨
    (c1.seq = 1 ∧ c2.seq = 0 ∧ ckeys c1 = rem)
  | _ => False

/-- One fixup iteration on a two-run state: the newer run loses at most
its zero-size head; its other keys are never trimmed or dropped. -/
theorem tworun_step (rem : List Bkey) (d d2 : List Cursor)
    (h : bch_extent_sort_fixup_step d = some d2) (ht : TwoRun rem d) :
    ∃ rem2, ZDrop rem rem2 ∧ TwoRun rem2 d2 := by
  obtain _ | ⟨top, _ | ⟨i, _ | ⟨x, rest⟩⟩⟩ := d
  · exact Option.noConfusion h
  · exact Option.noConfusion h
  case cons.cons.cons => exact absurd ht (by simp [TwoRun])
  simp only [bch_extent_sort_fixup_step] at h
  by_cases h1 : bkey_cmp top.k (START_KEY i.k) ≤ 0
  · rw [if_pos h1] at h; exact Option.noConfusion h
  rw [if_neg h1] at h
  rcases ht with ⟨hts, his, hkeys⟩ | ⟨hts, his, hkeys⟩
  · -- top is the older run, i the newer: only a zero-size head of `rem`
    -- can go; otherwise the top is cut back and `rem` is untouched
    by_cases h2 : KEY_SIZE i.k = 0
    · rw [if_pos h2] at h
      injection h with h
      subst h
      have hrem : rem = i.k :: i.rest := by rw [← hkeys]; rfl
      refine ⟨i.rest, ?_, ?_⟩
      · rw [hrem]
        exact ZDrop_cons i.k i.rest i.rest (by simpa using h2) (ZDrop_refl _)
      · unfold sortKeyNextIns
        cases hr : i.rest with
        | nil => exact Or.inl ⟨hts, rfl⟩
        | cons k2 ks => exact Or.inl ⟨hts, his, rfl⟩
    · rw [if_neg h2] at h
      have h3 : ¬ top.seq > i.seq := by omega
      rw [if_neg h3] at h
      injection h with h
      subst h
      exact ⟨rem, ZDrop_refl rem, Or.inl ⟨hts, his, hkeys⟩⟩
  · -- top is the newer run: every branch touches only the older cursor
    have h3 : top.seq > i.seq := by omega
    by_cases h2 : KEY_SIZE i.k = 0
    · rw [if_pos h2] at h
      injection h with h
      subst h
      refine ⟨rem, ZDrop_refl rem, ?_⟩
      unfold sortKeyNextIns
      cases i.rest with
      | nil => exact Or.inr ⟨hts, hkeys⟩
      | cons k2 ks => exact Or.inr ⟨hts, by simp [his], hkeys⟩
    · rw [if_neg h2] at h
      rw [if_pos h3] at h
      by_cases h4 : bkey_cmp top.k i.k ≥ 0
      · rw [if_pos h4] at h
        injection h with h
        subst h
        refine ⟨rem, ZDrop_refl rem, ?_⟩
        unfold sortKeyNextIns
        cases i.rest with
        | nil => exact Or.inr ⟨hts, hkeys⟩
        | cons k2 ks => exact Or.inr ⟨hts, by simp [his], hkeys⟩
      · rw [if_neg h4] at h
        injection h with h
        subst h
        exact ⟨rem, ZDrop_refl rem,
          Or.inr ⟨hts, by simp [his], hkeys⟩⟩

theorem tworun_fixupLoop :
    ∀ f (rem : List Bkey) (d : List Cursor), TwoRun rem d →
      ∃ rem2, ZDrop rem rem2 ∧
        TwoRun rem2 (fixupLoop bch_extent_sort_fixup_step f d) := by
  intro f
  induction f with
  | zero => intro rem d ht; exact ⟨rem, ZDrop_refl rem, ht⟩
  | succ n ih =>
    intro rem d ht
    unfold fixupLoop
    cases hst : bch_extent_sort_fixup_step d with
    | none => exact ⟨rem, ZDrop_refl rem, ht⟩
    | some d2 =>
      obtain ⟨rem2, hz2, ht2⟩ := tworun_step rem d d2 hst ht
      obtain ⟨rem3, hz3, ht3⟩ := ih rem2 d2 ht2
      exact ⟨rem3, ZDrop_trans rem rem2 rem3 hz2 hz3, ht3⟩

theorem insSorted_pair (cmp : Cursor → Cursor → Bool) (x y : Cursor) :
    insSorted cmp x [y] = [y, x] ∨ insSorted cmp x [y] = [x, y] := by
  unfold insSorted
  by_cases h : cmp x y = true
  · rw [if_pos h]
    left
    rfl
  · rw [if_neg h]
    right
    rfl

/-- Popping a two-run state: an emission from the older cursor leaves the
newer run untouched; an emission from the newer cursor emits exactly the
head of `rem`. -/
theorem tworun_pop (cmp : Cursor → Cursor → Bool) (rem : List Bkey) (c : Cursor)
    (rest : List Cursor) (ht : TwoRun rem (c :: rest)) :
    (c.seq = 0 ∧ TwoRun rem (sortKeyNextIns cmp c rest)) ∨
    (c.seq = 1 ∧ rem = c.k :: c.rest ∧
      TwoRun c.rest (sortKeyNextIns cmp c rest)) := by
  obtain _ | ⟨c2, _ | ⟨c3, rest2⟩⟩ := rest
  · rcases ht with ⟨h0, hrem⟩ | ⟨h1, hkeys⟩
    · refine Or.inl ⟨h0, ?_⟩
      unfold sortKeyNextIns
      cases hr : c.rest with
      | nil => exact hrem
      | cons k2 ks => exact Or.inl ⟨h0, hrem⟩
    · refine Or.inr ⟨h1, by rw [← hkeys]; rfl, ?_⟩
      unfold sortKeyNextIns
      cases hr : c.rest with
      | nil => exact rfl
      | cons k2 ks => exact Or.inr ⟨h1, rfl⟩
  · rcases ht with ⟨h0, h1, hkeys⟩ | ⟨h1, h0, hkeys⟩
    · refine Or.inl ⟨h0, ?_⟩
      unfold sortKeyNextIns
      cases hr : c.rest with
      | nil => exact Or.inr ⟨h1, hkeys⟩
      | cons k2 ks =>
        show TwoRun rem
          (insSorted cmp { seq := c.seq, k := k2, rest := ks } [c2])
        rcases insSorted_pair cmp
            { seq := c.seq, k := k2, rest := ks } c2 with he | he
        · rw [he]
          exact Or.inr ⟨h1, h0, hkeys⟩
        · rw [he]
          exact Or.inl ⟨h0, h1, hkeys⟩
    · refine Or.inr ⟨h1, by rw [← hkeys]; rfl, ?_⟩
      unfold sortKeyNextIns
      cases hr : c.rest with
      | nil => exact Or.inl ⟨h0, rfl⟩
      | cons k2 ks =>
        show TwoRun (k2 :: ks)
          (insSorted cmp { seq := c.seq, k := k2, rest := ks } [c2])
        rcases insSorted_pair cmp
            { seq := c.seq, k := k2, rest := ks } c2 with he | he
        · rw [he]
          exact Or.inl ⟨h0, h1, rfl⟩
        · rw [he]
          exact Or.inr ⟨h1, h0, rfl⟩
  · exact absurd ht (by simp [TwoRun])

/-- The two-run emission lemma: every emitted key tagged with the newer
run's token is a key of the newer run, and every positive-size key of the
newer run is emitted, tagged and unmodified. -/
theorem tworun_emit :
    ∀ fuel (rem : List Bkey) (d : List Cursor), iterMeasure d < fuel →
      TwoRun rem d →
      (∀ p ∈ emitGo bch_extent_sort_cmp bch_extent_sort_fixup fuel d,
          p.1 = 1 → p.2 ∈ rem) ∧
      (∀ k ∈ rem, 0 < k.size →
          (1, k) ∈ emitGo bch_extent_sort_cmp bch_extent_sort_fixup fuel d) := by
  intro fuel
  induction fuel with
  | zero => omega
  | succ n ih =>
    intro rem d hf ht
    obtain ⟨rem2, hz, ht2⟩ := tworun_fixupLoop (iterMeasure d + 1) rem d ht
    have ht2' : TwoRun rem2 (bch_extent_sort_fixup d) := ht2
    have hμ := extent_fixup_measure_le d
    unfold emitGo
    cases hfo : bch_extent_sort_fixup d with
    | nil =>
      rw [hfo] at ht2'
      constructor
      · intro p hp
        exact absurd hp (List.not_mem_nil p)
      · intro k hk hsz
        have hk2 := ZDrop_pos_mem rem rem2 hz k hk hsz
        have hnil : rem2 = [] := ht2'
        rw [hnil] at hk2
        simp at hk2
    | cons c rest =>
      rw [hfo] at ht2' hμ
      have hmsr : iterMeasure (sortKeyNextIns bch_extent_sort_cmp c rest) < n := by
        have hd := iterMeasure_sortKeyNextIns bch_extent_sort_cmp c rest
        have hp := keyMeasure_pos c.k
        have hcr := iterMeasure_cons c rest
        have hcm := cursorMeasure_eq c
        omega
      rcases tworun_pop bch_extent_sort_cmp rem2 c rest ht2' with ⟨hseq, ht3⟩ | ⟨hseq, hrem2, ht3⟩
      · obtain ⟨iha, ihb⟩ := ih rem2 _ hmsr ht3
        constructor
        · intro p hp hp1
          rcases List.mem_cons.mp hp with hpe | hp
          · rw [hpe] at hp1
            rw [hseq] at hp1
            exact absurd hp1 (by simp)
          · exact ZDrop_mem rem rem2 hz p.2 (iha p hp hp1)
        · intro k hk hsz
          have hk2 := ZDrop_pos_mem rem rem2 hz k hk hsz
          exact List.mem_cons_of_mem _ (ihb k hk2 hsz)
      · obtain ⟨iha, ihb⟩ := ih c.rest _ hmsr ht3
        constructor
        · intro p hp hp1
          rcases List.mem_cons.mp hp with hpe | hp
          · refine ZDrop_mem rem rem2 hz p.2 ?_
            rw [hrem2, hpe]
            simp
          · refine ZDrop_mem rem rem2 hz p.2 ?_
            rw [hrem2]
            exact List.mem_cons_of_mem _ (iha p hp hp1)
        · intro k hk hsz
          have hk2 := ZDrop_pos_mem rem rem2 hz k hk hsz
          rw [hrem2] at hk2
          rcases List.mem_cons.mp hk2 with rfl | hk2
          · rw [← hseq]
            exact List.mem_cons_self _ _
          · exact List.mem_cons_of_mem _ (ihb k hk2 hsz)

/-- The initial iterator of a two-run set satisfies `TwoRun`. -/
theorem tworun_init (cmp : Cursor → Cursor → Bool) (r1 r2 : List Bkey) :
    TwoRun r2 (mkIter cmp [r1, r2]) := by
  cases r1 with
  | nil =>
    cases r2 with
    | nil => exact rfl
    | cons k ks => exact Or.inr ⟨rfl, rfl⟩
  | cons k1 ks1 =>
    cases r2 with
    | nil => exact Or.inl ⟨rfl, rfl⟩
    | cons k2 ks2 =>
      show TwoRun (k2 :: ks2)
        (insSorted cmp { seq := 0, k := k1, rest := ks1 }
          [{ seq := 1, k := k2, rest := ks2 }])
      rcases insSorted_pair cmp { seq := 0, k := k1, rest := ks1 }
          { seq := 1, k := k2, rest := ks2 } with he | he
      · rw [he]
        exact Or.inr ⟨rfl, rfl, rfl⟩
      · rw [he]
        exact Or.inl ⟨rfl, rfl, rfl⟩

theorem covers_size_pos (k : Bkey) (a : Nat) (h : covers k a) : 0 < k.size := by
  obtain ⟨h1, h2⟩ := h
  simp only [KEY_START_def, KEY_OFFSET_def] at h1 h2
  omega

theorem rangesDisjoint_symm (k1 k2 : Bkey) (h : rangesDisjoint k1 k2) :
    rangesDisjoint k2 k1 := by
  intro a ha
  exact h a ⟨ha.2, ha.1⟩

/-- C2 (amended): in a merge of exactly two runs, keys of the newer run
are never trimmed or dropped in favour of older ones - every positive-size
key of the newer run is emitted unmodified - and any address covered by
both runs is only ever covered, in the output, by the newer run's key:
the emitted extent covering it carries the newer run's pointer data. -/
theorem C2_two_run_newest_wins (r1 r2 : List Bkey)
    (h1 : chainB r1 = true) (h2 : chainB r2 = true) (a : Nat)
    (hc1 : ∃ k1 ∈ r1, covers k1 a) (hc2 : ∃ k2 ∈ r2, covers k2 a) :
    (∃ p ∈ mergeExtentRuns [r1, r2], p.1 = 1 ∧ p.2 ∈ r2 ∧ covers p.2 a) ∧
    (∀ p ∈ mergeExtentRuns [r1, r2], covers p.2 a → p.1 = 1 ∧ p.2 ∈ r2) := by
  obtain ⟨k2, hk2, hcov⟩ := hc2
  have hsz := covers_size_pos k2 a hcov
  have hTR := tworun_init bch_extent_sort_cmp r1 r2
  have hchains : ∀ r ∈ [r1, r2], chainB r = true := by
    intro r hr
    rcases List.mem_cons.mp hr with rfl | hr
    · exact h1
    · rw [List.mem_singleton] at hr
      rw [hr]
      exact h2
  obtain ⟨hsound, hcomplete⟩ :=
    tworun_emit (iterMeasure (mkIter bch_extent_sort_cmp [r1, r2]) + 1) r2
      (mkIter bch_extent_sort_cmp [r1, r2]) (by omega) hTR
  have hmem : (1, k2) ∈ mergeExtentRuns [r1, r2] := hcomplete k2 hk2 hsz
  -- pairwise disjointness of the output, from the C1 machinery
  obtain ⟨hso, hwo, hbo⟩ := mkIter_inv [r1, r2] hchains
  have hchain := emit_chain (iterMeasure (mkIter bch_extent_sort_cmp [r1, r2]) + 1) 0
      (mkIter bch_extent_sort_cmp [r1, r2]) (by omega) hso hwo hbo
  have hpw : (mergeExtentRuns [r1, r2]).Pairwise (fun p q => rangesDisjoint p.2 q.2) := by
    unfold mergeExtentRuns emitExtents
    refine List.Pairwise.imp ?_ (ChainFrom_pairwise _ _ hchain)
    intro p q hpq
    exact rangesDisjoint_of_le _ _ (by simpa using hpq)
  refine ⟨⟨(1, k2), hmem, rfl, hk2, hcov⟩, ?_⟩
  intro p hp hcovp
  by_cases hpe : p = (1, k2)
  · rw [hpe]
    exact ⟨rfl, hk2⟩
  · have hsym : Symmetric (fun (p q : Nat × Bkey) => rangesDisjoint p.2 q.2) :=
      fun x y hxy => rangesDisjoint_symm _ _ hxy
    have hdisj := List.Pairwise.forall hsym hpw hp hmem hpe
    exact absurd ⟨hcovp, hcov⟩ (hdisj a)

/-- The three keys of the C2 counterexample: `[14,16)` in the oldest run,
`[0,20)` in the middle run, `[5,10)` in the newest run. -/
def c2KeyA : Bkey :=
  { offset := 16, size := 2, ptrs := [{ dev := 0, gen := 1, offset := 0 }],
    deleted := false, cached := false, csum := none }

/-- Middle (newer than `c2KeyA`) key `[0,20)` of the C2 counterexample. -/
def c2KeyB : Bkey :=
  { offset := 20, size := 20, ptrs := [{ dev := 0, gen := 2, offset := 100 }],
    deleted := false, cached := false, csum := none }

/-- Newest key `[5,10)` of the C2 counterexample. -/
def c2KeyC : Bkey :=
  { offset := 10, size := 5, ptrs := [{ dev := 0, gen := 3, offset := 200 }],
    deleted := false, cached := false, csum := none }

/-- C2 counterexample: with three runs, address 15 is covered by keys of
two different runs (run 0's `[14,16)` and run 1's newer `[0,20)`), yet the
emitted key covering 15 carries run 0's pointer data: the newer `[0,20)`
was cut back to `[0,5)` in favour of the newest run's `[5,10)` and its
tail coverage was lost, exposing the oldest run's data. -/
theorem C2_counterexample :
    covers c2KeyA 15 ∧ covers c2KeyB 15 ∧ c2KeyA.ptrs ≠ c2KeyB.ptrs ∧
    (1, c2KeyB) ∉ mergeExtentRuns [[c2KeyA], [c2KeyB], [c2KeyC]] ∧
    (∀ p ∈ mergeExtentRuns [[c2KeyA], [c2KeyB], [c2KeyC]],
      covers p.2 15 → p.1 = 0 ∧ p.2.ptrs = c2KeyA.ptrs) ∧
    (0, c2KeyA) ∈ mergeExtentRuns [[c2KeyA], [c2KeyB], [c2KeyC]] := by
  refine ⟨by decide, by decide, by decide, by decide, ?_, by decide⟩
  decide

/-- Witness for `C2_two_run_newest_wins`: the two-run set
`[[0,20)], [[5,10)]]` at address 7, covered by both runs. -/
theorem C2_witness :
    chainB [c2KeyB] = true ∧ chainB [c2KeyC] = true ∧
    (∃ k1 ∈ [c2KeyB], covers k1 7) ∧ (∃ k2 ∈ [c2KeyC], covers k2 7) ∧
    ((∃ p ∈ mergeExtentRuns [[c2KeyB], [c2KeyC]],
        p.1 = 1 ∧ p.2 ∈ [c2KeyC] ∧ covers p.2 7) ∧
     (∀ p ∈ mergeExtentRuns [[c2KeyB], [c2KeyC]],
        covers p.2 7 → p.1 = 1 ∧ p.2 ∈ [c2KeyC])) :=
  ⟨by decide, by decide, by decide, by decide,
   C2_two_run_newest_wins [c2KeyB] [c2KeyC] (by decide) (by decide) 7
     (by decide) (by decide)⟩

/-! ## Pointer-key merging (claim C8)

`bch_btree_ptr_sort_fixup` deduplicates equal keys across runs; it never
trims keys, so the machinery is the drop-only fragment of the extent
fixup. -/

/-- `bch_key_sort_cmp` (extents.c:38): whole-key comparison, ties broken
toward the newer run (`l.k < r.k` address recency in the source). -/
def bch_key_sort_cmp (l r : Cursor) : Bool :=
  let c := bkey_cmp l.k r.k
  if c ≠ 0 then decide (c > 0) else decide (l.seq < r.seq)

/-- One iteration of the `bch_btree_ptr_sort_fixup` while-loop
(extents.c:103-136): old-style all-zero freeing keys are not checked for
duplicates; otherwise a second entry comparing equal to the top (the older
of the two, by the comparator) is dropped. -/
def bch_btree_ptr_sort_fixup_step (d : List Cursor) : Option (List Cursor) :=
  match d with
  | top :: i :: rest =>
    if bkey_cmp top.k ZERO_KEY = 0 then none
    else if bkey_cmp top.k i.k ≠ 0 then none
    else some (top :: sortKeyNextIns bch_key_sort_cmp i rest)
  | _ => none

/-- Every pointer-key fixup iteration drops a key, shrinking the measure. -/
theorem ptr_step_measure (d d2 : List Cursor)
    (h : bch_btree_ptr_sort_fixup_step d = some d2) :
    iterMeasure d2 < iterMeasure d := by
  obtain _ | ⟨top, _ | ⟨i, rest⟩⟩ := d
  · exact Option.noConfusion h
  · exact Option.noConfusion h
  simp only [bch_btree_ptr_sort_fixup_step] at h
  by_cases h1 : bkey_cmp top.k ZERO_KEY = 0
  · rw [if_pos h1] at h; exact Option.noConfusion h
  rw [if_neg h1] at h
  by_cases h2 : bkey_cmp top.k i.k ≠ 0
  · rw [if_pos h2] at h; exact Option.noConfusion h
  rw [if_neg h2] at h
  injection h with h
  subst h
  have hm := iterMeasure_sortKeyNextIns bch_key_sort_cmp i rest
  have hp := keyMeasure_pos i.k
  rw [iterMeasure_cons, iterMeasure_cons, iterMeasure_cons]
  omega

/-- `bch_btree_ptr_sort_fixup` (extents.c:101): the loop run to its break
condition. -/
def bch_btree_ptr_sort_fixup (d : List Cursor) : List Cursor :=
  fixupLoop bch_btree_ptr_sort_fixup_step (iterMeasure d + 1) d

theorem ptr_fixup_no_step (d : List Cursor) :
    bch_btree_ptr_sort_fixup_step (bch_btree_ptr_sort_fixup d) = none :=
  fixupLoop_no_step _ ptr_step_measure _ d (by omega)

theorem ptr_fixup_measure_le (d : List Cursor) :
    iterMeasure (bch_btree_ptr_sort_fixup d) ≤ iterMeasure d :=
  fixupLoop_measure_le _ ptr_step_measure _ d

/-- Full pointer-key emission from an iterator state. -/
def emitPtrs (d : List Cursor) : List (Nat × Bkey) :=
  emitGo bch_key_sort_cmp bch_btree_ptr_sort_fixup (iterMeasure d + 1) d

/-- Full pointer-key merge of a run set. -/
def mergePtrRuns (runs : List (List Bkey)) : List (Nat × Bkey) :=
  emitPtrs (mkIter bch_key_sort_cmp runs)

/-- The pointer-key comparator in raw-field form. -/
theorem key_cmp_false_iff (a b : Cursor) :
    bch_key_sort_cmp a b = false ↔
      (a.k.offset < b.k.offset ∨ (a.k.offset = b.k.offset ∧ b.seq ≤ a.seq)) := by
  simp only [bch_key_sort_cmp, bkey_cmp_def]
  split_ifs with h <;> simp at h ⊢ <;> omega

theorem key_cmp_total (a b : Cursor) :
    bch_key_sort_cmp a b = false ∨ bch_key_sort_cmp b a = false := by
  rw [key_cmp_false_iff, key_cmp_false_iff]
  omega

theorem key_cmp_trans (a b c : Cursor)
    (h1 : bch_key_sort_cmp a b = false) (h2 : bch_key_sort_cmp b c = false) :
    bch_key_sort_cmp a c = false := by
  rw [key_cmp_false_iff] at *
  omega

/-- A strictly sorted run: offsets strictly increase. -/
def strictChainB : List Bkey → Bool
  | [] => true
  | [_] => true
  | k :: k2 :: ks => decide (k.offset < k2.offset) && strictChainB (k2 :: ks)

theorem strictChainB_tail (k : Bkey) (ks : List Bkey)
    (h : strictChainB (k :: ks) = true) : strictChainB ks = true := by
  cases ks with
  | nil => rfl
  | cons k2 ks2 =>
    simp only [strictChainB, Bool.and_eq_true] at h
    exact h.2

theorem strictChainB_head_lt (k : Bkey) (ks : List Bkey)
    (h : strictChainB (k :: ks) = true) : ∀ k2 ∈ ks, k.offset < k2.offset := by
  induction ks generalizing k with
  | nil => intro k2 hk2; simp at hk2
  | cons k2 ks2 ih =>
    intro k3 hk3
    have hlt : k.offset < k2.offset := by
      simp only [strictChainB, Bool.and_eq_true, decide_eq_true_eq] at h
      exact h.1
    rcases List.mem_cons.mp hk3 with rfl | hk3
    · exact hlt
    · have := ih k2 (strictChainB_tail k _ h) k3 hk3
      omega

/-- All cursors hold strictly sorted runs. -/
def StrictWfCur (d : List Cursor) : Prop := ∀ c ∈ d, strictChainB (ckeys c) = true

/-- `seq`-tagged key membership in the iterator. -/
def holdsKey (d : List Cursor) (s : Nat) (j : Bkey) : Prop :=
  ∃ c ∈ d, c.seq = s ∧ j ∈ ckeys c

/-- Advancing the top cursor preserves the iterator order. -/
theorem sorted_sortKeyNextIns (cmp : Cursor → Cursor → Bool)
    (htot : ∀ a b, cmp a b = false ∨ cmp b a = false)
    (htrans : ∀ a b c, cmp a b = false → cmp b c = false → cmp a c = false)
    (c : Cursor) (rest : List Cursor) (hs : SortedBy cmp (c :: rest)) :
    SortedBy cmp (sortKeyNextIns cmp c rest) := by
  have hrest : SortedBy cmp rest := (List.pairwise_cons.mp hs).2
  unfold sortKeyNextIns
  cases c.rest with
  | nil => exact hrest
  | cons k2 ks => exact pairwise_insSorted cmp htot htrans _ rest hrest

/-- Advancing the top cursor preserves strict well-formedness. -/
theorem strictwf_sortKeyNextIns (cmp : Cursor → Cursor → Bool)
    (c : Cursor) (rest : List Cursor) (hw : StrictWfCur (c :: rest)) :
    StrictWfCur (sortKeyNextIns cmp c rest) := by
  unfold sortKeyNextIns
  cases hr : c.rest with
  | nil => exact fun c2 hc2 => hw c2 (List.mem_cons_of_mem _ hc2)
  | cons k2 ks =>
    intro c2 hc2
    rcases (mem_insSorted cmp _ c2 rest).mp hc2 with rfl | hc2
    · have hc := hw c (List.mem_cons_self _ _)
      rw [ckeys_def, hr] at hc
      exact strictChainB_tail c.k (k2 :: ks) hc
    · exact hw c2 (List.mem_cons_of_mem _ hc2)

/-- Advancing the top cursor only sheds keys: every tagged key held
afterwards was held before. -/
theorem holds_sortKeyNextIns (cmp : Cursor → Cursor → Bool)
    (c : Cursor) (rest : List Cursor) (s : Nat) (j : Bkey)
    (h : holdsKey (sortKeyNextIns cmp c rest) s j) : holdsKey (c :: rest) s j := by
  revert h
  unfold sortKeyNextIns
  cases hr : c.rest with
  | nil =>
    intro h
    obtain ⟨c2, hc2, hseq, hj⟩ := h
    exact ⟨c2, List.mem_cons_of_mem _ hc2, hseq, hj⟩
  | cons k2 ks =>
    intro h
    obtain ⟨c2, hc2, hseq, hj⟩ := h
    rcases (mem_insSorted cmp _ c2 rest).mp hc2 with rfl | hc2
    · refine ⟨c, List.mem_cons_self _ _, hseq, ?_⟩
      show j ∈ c.k :: c.rest
      rw [hr]
      exact List.mem_cons_of_mem _ hj
    · exact ⟨c2, List.mem_cons_of_mem _ hc2, hseq, hj⟩

/-- When the pointer-key fixup breaks, the top is the legacy zero key or
the top two offsets differ. -/
theorem ptr_step_none_break (top i : Cursor) (rest : List Cursor)
    (h : bch_btree_ptr_sort_fixup_step (top :: i :: rest) = none) :
    top.k.offset = 0 ∨ top.k.offset ≠ i.k.offset := by
  simp only [bch_btree_ptr_sort_fixup_step] at h
  by_cases h1 : bkey_cmp top.k ZERO_KEY = 0
  · left
    simp only [bkey_cmp_def, ZERO_KEY] at h1
    omega
  rw [if_neg h1] at h
  by_cases h2 : bkey_cmp top.k i.k ≠ 0
  · right
    simp only [bkey_cmp_def] at h2
    omega
  rw [if_neg h2] at h
  exact Option.noConfusion h

theorem insSorted_nil (cmp : Cursor → Cursor → Bool) (c : Cursor) :
    insSorted cmp c [] = [c] := rfl

/-- One pointer-key fixup iteration on a sorted two-run state: sortedness
forces the equal-offset pair to have the newer cursor on top, so the
dropped key is the older run's; the newer run's remainder, the sort order
and strict well-formedness are preserved, and no tagged key appears that
was not already held. -/
theorem ptr_step_inv (rem : List Bkey) (d d2 : List Cursor)
    (h : bch_btree_ptr_sort_fixup_step d = some d2) (ht : TwoRun rem d)
    (hs : SortedBy bch_key_sort_cmp d) (hw : StrictWfCur d) :
    TwoRun rem d2 ∧ SortedBy bch_key_sort_cmp d2 ∧ StrictWfCur d2 ∧
      (∀ s j, holdsKey d2 s j → holdsKey d s j) := by
  obtain _ | ⟨top, _ | ⟨i, _ | ⟨x, rest⟩⟩⟩ := d
  · exact Option.noConfusion h
  · exact Option.noConfusion h
  case cons.cons.cons => exact absurd ht (by simp [TwoRun])
  simp only [bch_btree_ptr_sort_fixup_step] at h
  by_cases h1 : bkey_cmp top.k ZERO_KEY = 0
  · rw [if_pos h1] at h
    exact Option.noConfusion h
  rw [if_neg h1] at h
  by_cases h2 : bkey_cmp top.k i.k ≠ 0
  · rw [if_pos h2] at h
    exact Option.noConfusion h
  rw [if_neg h2] at h
  injection h with h
  subst h
  have heq : top.k.offset = i.k.offset := by
    simp only [bkey_cmp_def, ne_eq, not_not] at h2
    omega
  have hti : bch_key_sort_cmp top i = false :=
    (List.pairwise_cons.mp hs).1 i (List.mem_cons_self _ _)
  have hseqle : i.seq ≤ top.seq := by
    rw [key_cmp_false_iff] at hti
    omega
  rcases ht with ⟨h0, h1', _⟩ | ⟨hts, his, hkeys⟩
  · omega
  have hwi := hw i (List.mem_cons_of_mem _ (List.mem_cons_self _ _))
  rw [ckeys_def] at hwi
  unfold sortKeyNextIns
  cases hr : i.rest with
  | nil =>
    refine ⟨Or.inr ⟨hts, hkeys⟩, by simp [SortedBy], ?_, ?_⟩
    · intro c2 hc2
      have he := List.mem_singleton.mp hc2
      rw [he]
      exact hw top (List.mem_cons_self _ _)
    · intro s j hj
      obtain ⟨c2, hc2, hseq, hjk⟩ := hj
      have he := List.mem_singleton.mp hc2
      rw [he] at hseq hjk
      exact ⟨top, List.mem_cons_self _ _, hseq, hjk⟩
  | cons k2 ks =>
    rw [hr] at hwi
    simp only [strictChainB, Bool.and_eq_true, decide_eq_true_eq] at hwi
    show TwoRun rem (top :: [{ seq := i.seq, k := k2, rest := ks }]) ∧
        SortedBy bch_key_sort_cmp (top :: [{ seq := i.seq, k := k2, rest := ks }]) ∧
        StrictWfCur (top :: [{ seq := i.seq, k := k2, rest := ks }]) ∧
        ∀ s j, holdsKey (top :: [{ seq := i.seq, k := k2, rest := ks }]) s j →
          holdsKey [top, i] s j
    refine ⟨Or.inr ⟨hts, his, hkeys⟩, ?_, ?_, ?_⟩
    · refine List.pairwise_cons.mpr ⟨?_, by simp [SortedBy]⟩
      intro x hx
      have he := List.mem_singleton.mp hx
      rw [he, key_cmp_false_iff]
      left
      show top.k.offset < k2.offset
      omega
    · intro c2 hc2
      rcases List.mem_cons.mp hc2 with he | hc2
      · rw [he]
        exact hw top (List.mem_cons_self _ _)
      · have he := List.mem_singleton.mp hc2
        rw [he]
        exact hwi.2
    · intro s j hj
      obtain ⟨c2, hc2, hseq, hjk⟩ := hj
      rcases List.mem_cons.mp hc2 with he | hc2
      · rw [he] at hseq hjk
        exact ⟨top, List.mem_cons_self _ _, hseq, hjk⟩
      · have he := List.mem_singleton.mp hc2
        rw [he] at hseq hjk
        refine ⟨i, List.mem_cons_of_mem _ (List.mem_cons_self _ _), hseq, ?_⟩
        show j ∈ i.k :: i.rest
        rw [hr]
        exact List.mem_cons_of_mem _ hjk

/-- The pointer-key fixup loop preserves the two-run invariants and only
sheds held keys. -/
theorem ptr_loop_inv :
    ∀ f (rem : List Bkey) (d : List Cursor), TwoRun rem d →
      SortedBy bch_key_sort_cmp d → StrictWfCur d →
      TwoRun rem (fixupLoop bch_btree_ptr_sort_fixup_step f d) ∧
      SortedBy bch_key_sort_cmp (fixupLoop bch_btree_ptr_sort_fixup_step f d) ∧
      StrictWfCur (fixupLoop bch_btree_ptr_sort_fixup_step f d) ∧
      (∀ s j, holdsKey (fixupLoop bch_btree_ptr_sort_fixup_step f d) s j →
        holdsKey d s j) := by
  intro f
  induction f with
  | zero => intro rem d ht hs hw; exact ⟨ht, hs, hw, fun s j hj => hj⟩
  | succ n ih =>
    intro rem d ht hs hw
    unfold fixupLoop
    cases hst : bch_btree_ptr_sort_fixup_step d with
    | none => exact ⟨ht, hs, hw, fun s j hj => hj⟩
    | some d2 =>
      obtain ⟨ht2, hs2, hw2, hh2⟩ := ptr_step_inv rem d d2 hst ht hs hw
      obtain ⟨ht3, hs3, hw3, hh3⟩ := ih rem d2 ht2 hs2 hw2
      exact ⟨ht3, hs3, hw3, fun s j hj => hh2 s j (hh3 s j hj)⟩

/-- At the pointer-key fixup's break point of a sorted, strictly
well-formed pair, a non-zero top key is held by no later cursor. -/
theorem ptr_break_top_unique (c c2 : Cursor)
    (hnone : bch_btree_ptr_sort_fixup_step (c :: [c2]) = none)
    (hs : SortedBy bch_key_sort_cmp (c :: [c2]))
    (hw : StrictWfCur (c :: [c2]))
    (h0 : c.k.offset ≠ 0) : c.k ∉ ckeys c2 := by
  have hbrk := ptr_step_none_break c c2 [] hnone
  have hcc : bch_key_sort_cmp c c2 = false :=
    (List.pairwise_cons.mp hs).1 c2 (List.mem_cons_self _ _)
  rw [key_cmp_false_iff] at hcc
  have hlt : c.k.offset < c2.k.offset := by
    rcases hbrk with h | h
    · exact absurd h h0
    · omega
  intro hin
  rw [ckeys_def] at hin
  rcases List.mem_cons.mp hin with he | hin
  · rw [he] at hlt
    omega
  · have hw2 := hw c2 (List.mem_cons_of_mem _ (List.mem_cons_self _ _))
    rw [ckeys_def] at hw2
    have := strictChainB_head_lt c2.k c2.rest hw2 c.k hin
    omega

/-- Pointer-key dedup emission over a sorted, strictly well-formed
two-run state: a non-zero key `k` whose older-tagged occurrences are all
matched in the newer run's remainder `rem` is never emitted with the
older tag; every remainder key is emitted with the newer tag; newer-tagged
emissions come from the remainder; tags stay 0/1; and `(1, k)` appears at
most once. -/
theorem ptr_dedup_emit :
    ∀ fuel (rem : List Bkey) (d : List Cursor) (k : Bkey),
      iterMeasure d < fuel → TwoRun rem d →
      SortedBy bch_key_sort_cmp d → StrictWfCur d →
      k.offset ≠ 0 → (holdsKey d 0 k → k ∈ rem) →
      ((0, k) ∉ emitGo bch_key_sort_cmp bch_btree_ptr_sort_fixup fuel d) ∧
      (∀ j ∈ rem, (1, j) ∈ emitGo bch_key_sort_cmp bch_btree_ptr_sort_fixup fuel d) ∧
      (∀ p ∈ emitGo bch_key_sort_cmp bch_btree_ptr_sort_fixup fuel d,
        p.1 = 1 → p.2 ∈ rem) ∧
      (∀ p ∈ emitGo bch_key_sort_cmp bch_btree_ptr_sort_fixup fuel d,
        p.1 = 0 ∨ p.1 = 1) ∧
      List.count (1, k) (emitGo bch_key_sort_cmp bch_btree_ptr_sort_fixup fuel d) ≤ 1 := by
  intro fuel
  induction fuel with
  | zero => omega
  | succ n ih =>
    intro rem d k hf ht hs hw hk0 hq
    obtain ⟨ht2, hs2, hw2, hh2⟩ := ptr_loop_inv (iterMeasure d + 1) rem d ht hs hw
    have ht2' : TwoRun rem (bch_btree_ptr_sort_fixup d) := ht2
    have hs2' : SortedBy bch_key_sort_cmp (bch_btree_ptr_sort_fixup d) := hs2
    have hw2' : StrictWfCur (bch_btree_ptr_sort_fixup d) := hw2
    have hh2' : ∀ s j, holdsKey (bch_btree_ptr_sort_fixup d) s j → holdsKey d s j := hh2
    have hμ := ptr_fixup_measure_le d
    have hnone := ptr_fixup_no_step d
    cases hfo : bch_btree_ptr_sort_fixup d with
    | nil =>
      rw [hfo] at ht2'
      have hout : emitGo bch_key_sort_cmp bch_btree_ptr_sort_fixup (n + 1) d = [] := by
        conv_lhs => rw [emitGo]
        rw [hfo]
        rfl
      rw [hout]
      have hrnil : rem = [] := ht2'
      refine ⟨by simp, ?_, by simp, by simp, by simp⟩
      intro j hj
      rw [hrnil] at hj
      exact absurd hj (List.not_mem_nil j)
    | cons c rest =>
      rw [hfo] at ht2' hs2' hw2' hh2' hμ hnone
      have hout : emitGo bch_key_sort_cmp bch_btree_ptr_sort_fixup (n + 1) d =
          (c.seq, c.k) :: emitGo bch_key_sort_cmp bch_btree_ptr_sort_fixup n
            (sortKeyNextIns bch_key_sort_cmp c rest) := by
        conv_lhs => rw [emitGo]
        rw [hfo]
        rfl
      rw [hout]
      have hmsr : iterMeasure (sortKeyNextIns bch_key_sort_cmp c rest) < n := by
        have hd := iterMeasure_sortKeyNextIns bch_key_sort_cmp c rest
        have hp := keyMeasure_pos c.k
        have hcr := iterMeasure_cons c rest
        have hcm := cursorMeasure_eq c
        omega
      have hs3 := sorted_sortKeyNextIns bch_key_sort_cmp key_cmp_total key_cmp_trans
        c rest hs2'
      have hw3 := strictwf_sortKeyNextIns bch_key_sort_cmp c rest hw2'
      rcases tworun_pop bch_key_sort_cmp rem c rest ht2' with ⟨hseq0, ht3⟩ | ⟨hseq1, hrem, ht3⟩
      · -- the older cursor is on top: its key cannot be the duplicate `k`
        have hq3 : holdsKey (sortKeyNextIns bch_key_sort_cmp c rest) 0 k → k ∈ rem :=
          fun h => hq (hh2' 0 k (holds_sortKeyNextIns bch_key_sort_cmp c rest 0 k h))
        obtain ⟨ihA, ihB, ihC, ihD, ihE⟩ := ih rem _ k hmsr ht3 hs3 hw3 hk0 hq3
        have hck : c.k ≠ k := by
          intro he
          have hh0 : holdsKey (c :: rest) 0 k :=
            ⟨c, List.mem_cons_self _ _, hseq0,
              by rw [ckeys_def, he]; exact List.mem_cons_self _ _⟩
          have hkrem : k ∈ rem := hq (hh2' 0 k hh0)
          obtain _ | ⟨c2, _ | ⟨c3, rest2⟩⟩ := rest
          · rcases ht2' with ⟨_, hrnil⟩ | ⟨h1', _⟩
            · rw [hrnil] at hkrem
              exact absurd hkrem (List.not_mem_nil k)
            · omega
          · rcases ht2' with ⟨_, _, hkeys2⟩ | ⟨h1', _, _⟩
            · refine ptr_break_top_unique c c2 hnone hs2' hw2' ?_ ?_
              · rw [he]
                exact hk0
              · rw [hkeys2, he]
                exact hkrem
            · omega
          · exact absurd ht2' (by simp [TwoRun])
        refine ⟨?_, ?_, ?_, ?_, ?_⟩
        · intro hmem
          rcases List.mem_cons.mp hmem with he | hmem
          · have h2' : k = c.k := congrArg Prod.snd he
            exact hck h2'.symm
          · exact ihA hmem
        · intro j hj
          exact List.mem_cons_of_mem _ (ihB j hj)
        · intro p hp hp1
          rcases List.mem_cons.mp hp with he | hp
          · exfalso
            rw [he] at hp1
            have h1' : c.seq = 1 := hp1
            omega
          · exact ihC p hp hp1
        · intro p hp
          rcases List.mem_cons.mp hp with he | hp
          · left
            rw [he]
            exact hseq0
          · exact ihD p hp
        · have hne : ((1 : Nat), k) ≠ (c.seq, c.k) := by
            intro he
            have h1' : (1 : Nat) = c.seq := congrArg Prod.fst he
            omega
          rw [List.count_cons_of_ne hne]
          exact ihE
      · -- the newer cursor is on top: its head key is emitted with tag 1
        have hq3 : holdsKey (sortKeyNextIns bch_key_sort_cmp c rest) 0 k → k ∈ c.rest := by
          intro h
          have h0 : holdsKey (c :: rest) 0 k :=
            holds_sortKeyNextIns bch_key_sort_cmp c rest 0 k h
          have hkrem : k ∈ rem := hq (hh2' 0 k h0)
          rw [hrem] at hkrem
          rcases List.mem_cons.mp hkrem with he | hkrem2
          · exfalso
            obtain ⟨c0, hc0, hc0seq, hc0k⟩ := h0
            rcases List.mem_cons.mp hc0 with he0 | hc0
            · rw [he0] at hc0seq
              omega
            · obtain _ | ⟨c2, _ | ⟨c3, rest2⟩⟩ := rest
              · exact absurd hc0 (List.not_mem_nil c0)
              · have he2 := List.mem_singleton.mp hc0
                rw [he2] at hc0k
                refine ptr_break_top_unique c c2 hnone hs2' hw2' ?_ ?_
                · rw [← he]
                  exact hk0
                · rw [← he]
                  exact hc0k
              · exact absurd ht2' (by simp [TwoRun])
          · exact hkrem2
        obtain ⟨ihA, ihB, ihC, ihD, ihE⟩ := ih c.rest _ k hmsr ht3 hs3 hw3 hk0 hq3
        refine ⟨?_, ?_, ?_, ?_, ?_⟩
        · intro hmem
          rcases List.mem_cons.mp hmem with he | hmem
          · have h1' : (0 : Nat) = c.seq := congrArg Prod.fst he
            omega
          · exact ihA hmem
        · intro j hj
          rw [hrem] at hj
          rcases List.mem_cons.mp hj with he | hj
          · rw [he, ← hseq1]
            exact List.mem_cons_self _ _
          · exact List.mem_cons_of_mem _ (ihB j hj)
        · intro p hp hp1
          rcases List.mem_cons.mp hp with he | hp
          · rw [he, hrem]
            exact List.mem_cons_self _ _
          · rw [hrem]
            exact List.mem_cons_of_mem _ (ihC p hp hp1)
        · intro p hp
          rcases List.mem_cons.mp hp with he | hp
          · right
            rw [he]
            exact hseq1
          · exact ihD p hp
        · by_cases hck : c.k = k
          · have hhead : ((c.seq, c.k) : Nat × Bkey) = (1, k) := by
              rw [hseq1, hck]
            have hnotin : ((1 : Nat), k) ∉ emitGo bch_key_sort_cmp bch_btree_ptr_sort_fixup n
                (sortKeyNextIns bch_key_sort_cmp c rest) := by
              intro hmem
              have hkc : k ∈ c.rest := ihC (1, k) hmem rfl
              have hwc := hw2' c (List.mem_cons_self _ _)
              rw [ckeys_def] at hwc
              have hlt := strictChainB_head_lt c.k c.rest hwc k hkc
              rw [hck] at hlt
              omega
            rw [hhead, List.count_cons_self, List.count_eq_zero.mpr hnotin]
          · have hne : ((1 : Nat), k) ≠ (c.seq, c.k) := by
              intro he
              have h2' : k = c.k := congrArg Prod.snd he
              exact hck h2'.symm
            rw [List.count_cons_of_ne hne]
            exact ihE

/-- C8: two strictly sorted runs each containing the same pointer key
(offset nonzero, so not the legacy zero key): the pointer-key merge emits
exactly one copy of that key, tagged with the newer run's token; no copy
carries the older run's tag, and every emitted occurrence of the key is
the newer-tagged one.  (`bch_btree_ptr_sort_fixup`, extents.c:101-137,
dropping the older duplicate via `sort_key_next` + `heap_sift`.) -/
theorem C8_ptr_dedup (r1 r2 : List Bkey) (k : Bkey)
    (hc1 : strictChainB r1 = true) (hc2 : strictChainB r2 = true)
    (hk1 : k ∈ r1) (hk2 : k ∈ r2) (hk0 : k.offset ≠ 0) :
    (1, k) ∈ mergePtrRuns [r1, r2] ∧
    (0, k) ∉ mergePtrRuns [r1, r2] ∧
    List.count (1, k) (mergePtrRuns [r1, r2]) = 1 ∧
    (∀ p ∈ mergePtrRuns [r1, r2], p.2 = k → p = (1, k)) := by
  have ht0 : TwoRun r2 (mkIter bch_key_sort_cmp [r1, r2]) :=
    tworun_init bch_key_sort_cmp r1 r2
  have hs0 : SortedBy bch_key_sort_cmp (mkIter bch_key_sort_cmp [r1, r2]) :=
    sortedBy_foldr_insSorted bch_key_sort_cmp key_cmp_total key_cmp_trans
      (mkCursors 0 [r1, r2])
  have hw0 : StrictWfCur (mkIter bch_key_sort_cmp [r1, r2]) := by
    intro c hc
    have hcm : c ∈ mkCursors 0 [r1, r2] :=
      (mem_foldr_insSorted bch_key_sort_cmp c (mkCursors 0 [r1, r2])).mp hc
    obtain ⟨r, hr, hkeys⟩ := mem_mkCursors [r1, r2] c 0 hcm
    rw [hkeys]
    rcases List.mem_cons.mp hr with he | hr
    · rw [he]
      exact hc1
    · have he := List.mem_singleton.mp hr
      rw [he]
      exact hc2
  obtain ⟨hA, hB, hC, hD, hE⟩ :=
    ptr_dedup_emit (iterMeasure (mkIter bch_key_sort_cmp [r1, r2]) + 1) r2
      (mkIter bch_key_sort_cmp [r1, r2]) k (by omega) ht0 hs0 hw0 hk0
      (fun _ => hk2)
  have hmem : (1, k) ∈ mergePtrRuns [r1, r2] := hB k hk2
  refine ⟨hmem, hA, ?_, ?_⟩
  · have hge : 0 < List.count (1, k) (mergePtrRuns [r1, r2]) :=
      List.count_pos_iff.mpr hmem
    have hle : List.count (1, k) (mergePtrRuns [r1, r2]) ≤ 1 := hE
    omega
  · intro p hp hpk
    obtain ⟨pa, pb⟩ := p
    have hpk' : pb = k := hpk
    rcases hD (pa, pb) hp with h0 | h1
    · exfalso
      have h0' : pa = 0 := h0
      rw [h0', hpk'] at hp
      exact hA hp
    · have h1' : pa = 1 := h1
      rw [h1', hpk']

/-- The duplicated pointer key of the C8 witness: offset 1000, size 0. -/
def c8Key : Bkey :=
  { offset := 1000, size := 0, ptrs := [{ dev := 0, gen := 3, offset := 64 }],
    deleted := false, cached := false, csum := none }

theorem C8_witness :
    strictChainB [c8Key] = true ∧ c8Key ∈ [c8Key] ∧ c8Key.offset ≠ 0 ∧
    ((1, c8Key) ∈ mergePtrRuns [[c8Key], [c8Key]] ∧
     (0, c8Key) ∉ mergePtrRuns [[c8Key], [c8Key]] ∧
     List.count (1, c8Key) (mergePtrRuns [[c8Key], [c8Key]]) = 1 ∧
     (∀ p ∈ mergePtrRuns [[c8Key], [c8Key]], p.2 = c8Key → p = (1, c8Key))) :=
  ⟨by decide, by decide, by decide,
    C8_ptr_dedup [c8Key] [c8Key] c8Key (by decide) (by decide) (by decide)
      (by decide) (by decide)⟩

end Bcache
